import Mathlib

/-!
# DualCipher: keyword substitution followed by Playfair

A shallow embedding of `src/DualCipher.cpp`.

* A C++ `char` is modelled by the natural number `(unsigned char)ch`; a
  `std::string` is a `List Nat`.  `'A'` is `65`, `'Z'` is `90`, `'I'` is `73`,
  `'J'` is `74`, `'X'` is `88`.
* The object state is the structure `DualCipher` (the private members
  `keyword` and `playfairGrid`); member functions take the state explicitly.
* `playfairGrid` is `char[5][5]`, modelled as `Fin 5 → Fin 5 → Nat`.  Reading
  it with indices outside `0..4` is undefined behaviour in the source; the
  Playfair transforms therefore return `Option`, `none` standing for an
  out-of-bounds read.
-/

set_option autoImplicit false

/-- The bytes of an ASCII literal, used to write concrete inputs readably. -/
def str (s : String) : List Nat := s.toList.map Char.toNat

/-- `isalpha((unsigned char)c)` in the "C" locale: `A..Z` or `a..z`. -/
def isalpha (c : Nat) : Bool := (65 ≤ c && c ≤ 90) || (97 ≤ c && c ≤ 122)

/-- `toupper((unsigned char)c)` in the "C" locale. -/
def toupper (c : Nat) : Nat := if 97 ≤ c ∧ c ≤ 122 then c - 32 else c

/-- The private state of a `DualCipher` object (source lines 6-7). -/
structure DualCipher where
  keyword : List Nat
  playfairGrid : Fin 5 → Fin 5 → Nat

namespace DualCipher

/-- `normalizeLetters` (source lines 10-17). -/
def normalizeLetters (s : List Nat) : List Nat :=
  s.foldl (fun out ch => if isalpha ch then out ++ [toupper ch] else out) []

/-- `buildKeywordAlphabet` (source lines 20-37).  `temp.find(c) == npos` is
`c ∉ temp`; the last loop runs `c` over `'A'..'Z'`. -/
def buildKeywordAlphabet (rawKey : List Nat) : List Nat :=
  let key := rawKey.map toupper
  let temp := key.foldl
    (fun temp c => if isalpha c = true ∧ c ∉ temp then temp ++ [c] else temp) []
  (List.range' 65 26).foldl
    (fun temp c => if c ∉ temp then temp ++ [c] else temp) temp

/-- The local string `key` of `buildPlayfairGrid` after its first two loops
(source lines 41-52). -/
def playfairKey (keyword : List Nat) : List Nat :=
  let key := keyword.foldl
    (fun key ch =>
      let c := toupper ch
      let c := if c = 74 then 73 else c
      if isalpha c = true ∧ c ∉ key then key ++ [c] else key) []
  (List.range' 65 26).foldl
    (fun key c => if c = 74 then key else if c ∉ key then key ++ [c] else key) key

/-- The assignment `playfairGrid[r][c] = v`. -/
def setCell (g : Fin 5 → Fin 5 → Nat) (r c : Fin 5) (v : Nat) : Fin 5 → Fin 5 → Nat :=
  fun r' c' => if r' = r ∧ c' = c then v else g r' c'

/-- The grid-populating loops of `buildPlayfairGrid` (source lines 54-57):
the loop state is the grid and `idx`; `key[idx]` is read with default `0`
(the terminator a `std::string` returns at `idx == size()`). -/
def fillGrid (key : List Nat) (g : Fin 5 → Fin 5 → Nat) : (Fin 5 → Fin 5 → Nat) × Nat :=
  (List.finRange 5).foldl
    (fun st r =>
      (List.finRange 5).foldl
        (fun st c => (setCell st.1 r c (key.getD st.2 0), st.2 + 1)) st)
    (g, 0)

/-- `buildPlayfairGrid` (source lines 40-58). -/
def buildPlayfairGrid (s : DualCipher) : DualCipher :=
  { s with playfairGrid := (fillGrid (playfairKey s.keyword) s.playfairGrid).1 }

/-- `findPosInGrid` (source lines 61-67): the first cell, in row-major order,
holding `ch` (with `J` read as `I`), or the sentinel `(-1, -1)`. -/
def findPosInGrid (s : DualCipher) (ch : Nat) : Int × Int :=
  let ch := if ch = 74 then 73 else ch
  match (List.finRange 5).findSome? (fun r =>
      (List.finRange 5).findSome? (fun c =>
        if s.playfairGrid r c = ch then some (r, c) else none)) with
  | some (r, c) => ((r.val : Int), (c.val : Int))
  | none => (-1, -1)

/-- The read `playfairGrid[r][c]` with `int` indices; `none` when an index is
outside `0..4`. -/
def gridAt (s : DualCipher) (r c : Int) : Option Nat :=
  if h : 0 ≤ r ∧ r < 5 ∧ 0 ≤ c ∧ c < 5 then
    some (s.playfairGrid ⟨r.toNat, by omega⟩ ⟨c.toNat, by omega⟩)
  else none

/-- The clean-up loop of `prepareForPlayfair` (source lines 71-78). -/
def cleanForPlayfair (raw : List Nat) : List Nat :=
  raw.foldl
    (fun cleaned ch =>
      if isalpha ch then
        let c := toupper ch
        let c := if c = 74 then 73 else c
        cleaned ++ [c]
      else cleaned) []

/-- The pairing loop of `prepareForPlayfair` (source lines 81-93), with loop
state `i` and `out`.  Each iteration advances `i`, so `cleaned.length`
iterations (the fuel given by `prepareForPlayfair`) always reach `i ≥ size`. -/
def prepareLoop (cleaned : List Nat) : Nat → Nat → List Nat → List Nat
  | 0, _, out => out
  | fuel + 1, i, out =>
    if i < cleaned.length then
      let a := cleaned.getD i 0
      let out := out ++ [a]
      if i + 1 < cleaned.length then
        let b := cleaned.getD (i + 1) 0
        if a = b then prepareLoop cleaned fuel (i + 1) (out ++ [88])
        else prepareLoop cleaned fuel (i + 1 + 1) (out ++ [b])
      else prepareLoop cleaned fuel (i + 1) out
    else out

/-- `prepareForPlayfair` (source lines 70-97). -/
def prepareForPlayfair (raw : List Nat) : List Nat :=
  let cleaned := cleanForPlayfair raw
  let out := prepareLoop cleaned cleaned.length 0 []
  if out.length % 2 = 1 then out ++ [88] else out

/-- The body of the loop of `playfairEncryptPrepared` for one pair
(source lines 104-118).  `%` of the source is truncated remainder. -/
def encryptPair (s : DualCipher) (a b : Nat) : Option (Nat × Nat) :=
  let p1 := findPosInGrid s a
  let p2 := findPosInGrid s b
  let r1 := p1.1
  let c1 := p1.2
  let r2 := p2.1
  let c2 := p2.2
  if r1 = r2 then do
    let x ← gridAt s r1 (Int.tmod (c1 + 1) 5)
    let y ← gridAt s r2 (Int.tmod (c2 + 1) 5)
    some (x, y)
  else if c1 = c2 then do
    let x ← gridAt s (Int.tmod (r1 + 1) 5) c1
    let y ← gridAt s (Int.tmod (r2 + 1) 5) c2
    some (x, y)
  else do
    let x ← gridAt s r1 c2
    let y ← gridAt s r2 c1
    some (x, y)

/-- The body of the loop of `playfairDecryptCipher` for one pair
(source lines 128-142). -/
def decryptPair (s : DualCipher) (a b : Nat) : Option (Nat × Nat) :=
  let p1 := findPosInGrid s a
  let p2 := findPosInGrid s b
  let r1 := p1.1
  let c1 := p1.2
  let r2 := p2.1
  let c2 := p2.2
  if r1 = r2 then do
    let x ← gridAt s r1 (Int.tmod (c1 + 4) 5)
    let y ← gridAt s r2 (Int.tmod (c2 + 4) 5)
    some (x, y)
  else if c1 = c2 then do
    let x ← gridAt s (Int.tmod (r1 + 4) 5) c1
    let y ← gridAt s (Int.tmod (r2 + 4) 5) c2
    some (x, y)
  else do
    let x ← gridAt s r1 c2
    let y ← gridAt s r2 c1
    some (x, y)

/-- `playfairEncryptPrepared` (source lines 100-121): the loop
`for (i = 0; i < size; i += 2)` consumes the string two characters at a time;
at an odd tail `prepared[i+1]` reads the terminator `'\0'`. -/
def playfairEncryptPrepared (s : DualCipher) : List Nat → Option (List Nat)
  | [] => some []
  | [a] => do
    let p ← encryptPair s a 0
    some [p.1, p.2]
  | a :: b :: rest => do
    let p ← encryptPair s a b
    let tl ← playfairEncryptPrepared s rest
    some (p.1 :: p.2 :: tl)

/-- `playfairDecryptCipher` (source lines 124-145). -/
def playfairDecryptCipher (s : DualCipher) : List Nat → Option (List Nat)
  | [] => some []
  | [a] => do
    let p ← decryptPair s a 0
    some [p.1, p.2]
  | a :: b :: rest => do
    let p ← decryptPair s a b
    let tl ← playfairDecryptCipher s rest
    some (p.1 :: p.2 :: tl)

/-- `setKeyword` (source lines 151-155). -/
def setKeyword (s : DualCipher) (k : List Nat) : DualCipher :=
  let cleared : List Nat := []
  let kw := k.foldl (fun kw ch => if isalpha ch then kw ++ [toupper ch] else kw) cleared
  buildPlayfairGrid { s with keyword := kw }

/-- The constant `alpha` of `keywordEncrypt` and `keywordDecrypt`. -/
def alpha : List Nat := str "ABCDEFGHIJKLMNOPQRSTUVWXYZ"

/-- `keywordEncrypt` (source lines 158-170).  `alpha.find(c)` is
`alpha.indexOf c`, which is `alpha.length` when `c` is absent; `map[pos]` is
read with the terminator as default. -/
def keywordEncrypt (s : DualCipher) (plain : List Nat) : List Nat :=
  let cleaned := normalizeLetters plain
  let map := buildKeywordAlphabet s.keyword
  cleaned.foldl
    (fun out c =>
      let pos := alpha.indexOf c
      if pos < alpha.length then out ++ [map.getD pos 0] else out ++ [c]) []

/-- `keywordDecrypt` (source lines 173-185). -/
def keywordDecrypt (s : DualCipher) (cipher : List Nat) : List Nat :=
  let cleaned := normalizeLetters cipher
  let map := buildKeywordAlphabet s.keyword
  cleaned.foldl
    (fun out c =>
      let pos := map.indexOf c
      if pos < map.length then out ++ [alpha.getD pos 0] else out ++ [c]) []

/-- `encrypt` (source lines 188-195). -/
def encrypt (s : DualCipher) (plaintext : List Nat) : Option (List Nat) :=
  let stage1 := keywordEncrypt s plaintext
  let prepared := prepareForPlayfair stage1
  playfairEncryptPrepared s prepared

/-- `decrypt` (source lines 198-204). -/
def decrypt (s : DualCipher) (ciphertext : List Nat) : Option (List Nat) := do
  let stage1 ← playfairDecryptCipher s ciphertext
  some (keywordDecrypt s stage1)

/-- The grid read row by row, as `showPlayfairGrid` prints it
(source lines 207-212). -/
def gridRows (s : DualCipher) : List (List Nat) :=
  List.ofFn (fun r => List.ofFn (fun c => s.playfairGrid r c))

/-- A state for a default-constructed object: empty keyword; the grid cells
are indeterminate in the source and taken as `0` here. -/
def fresh : DualCipher := ⟨[], fun _ _ => 0⟩

/-! ## Auxiliary definitions used by the statements and proofs -/

/-- An uppercase letter `A..Z`. -/
def IsUpper (c : Nat) : Prop := 65 ≤ c ∧ c ≤ 90

instance (c : Nat) : Decidable (IsUpper c) := by unfold IsUpper; infer_instance

/-- `J` read as `I` (the statement `if (c == 'J') c = 'I'`). -/
def mergeJ (c : Nat) : Nat := if c = 74 then 73 else c

/-- A list with its repeats removed, every element kept at its first
occurrence. -/
def firstOccurrences : List Nat → List Nat
  | [] => []
  | x :: xs => x :: (firstOccurrences xs).filter (fun y => decide (y ≠ x))

/-- A letter the grid can hold: an uppercase letter other than `J`. -/
def IsGridLetter (c : Nat) : Prop := IsUpper c ∧ c ≠ 74

instance (c : Nat) : Decidable (IsGridLetter c) := by unfold IsGridLetter; infer_instance

/-- The letters `A..Z` without `J`, in alphabetical order. -/
def gridLetters : List Nat := (List.range' 65 26).filter (fun c => decide (c ≠ 74))

/-- The grid invariant: the 25 cells are pairwise distinct and are exactly the
letters `A..Z` without `J`. -/
structure GridOK (s : DualCipher) : Prop where
  inj : ∀ r c r' c', s.playfairGrid r c = s.playfairGrid r' c' → r = r' ∧ c = c'
  letter : ∀ r c, IsGridLetter (s.playfairGrid r c)
  cover : ∀ ch, IsGridLetter ch → ∃ r c, s.playfairGrid r c = ch

/-- What `playfairEncryptPrepared` emits for the pair standing at two given
cells of the grid. -/
def encryptCells (s : DualCipher) (r1 c1 r2 c2 : Fin 5) : Nat × Nat :=
  if r1 = r2 then (s.playfairGrid r1 (c1 + 1), s.playfairGrid r2 (c2 + 1))
  else if c1 = c2 then (s.playfairGrid (r1 + 1) c1, s.playfairGrid (r2 + 1) c2)
  else (s.playfairGrid r1 c2, s.playfairGrid r2 c1)

/-- What `playfairDecryptCipher` emits for the pair standing at two given
cells of the grid. -/
def decryptCells (s : DualCipher) (r1 c1 r2 c2 : Fin 5) : Nat × Nat :=
  if r1 = r2 then (s.playfairGrid r1 (c1 + 4), s.playfairGrid r2 (c2 + 4))
  else if c1 = c2 then (s.playfairGrid (r1 + 4) c1, s.playfairGrid (r2 + 4) c2)
  else (s.playfairGrid r1 c2, s.playfairGrid r2 c1)

/-- The character occurs in the grid. -/
def InGrid (s : DualCipher) (ch : Nat) : Prop := ∃ r c, s.playfairGrid r c = ch

/-- The greedy left-to-right pairing of a cleaned text: a lone last letter is
completed by the filler `X`; two equal letters are split by the filler, the
second one starting the next pair; two different letters form a pair. -/
def prep : List Nat → List Nat
  | [] => []
  | [a] => [a, 88]
  | a :: b :: rest =>
    if a = b then a :: 88 :: prep (b :: rest) else a :: b :: prep rest

/-- What the pairing loop appends to `out` when it starts at a given suffix of
`cleaned`, before the final padding. -/
def loopOutput : List Nat → List Nat
  | [] => []
  | [a] => [a]
  | a :: b :: rest =>
    if a = b then a :: 88 :: loopOutput (b :: rest) else a :: b :: loopOutput rest

/-- The 25 cells of the grid in row-major order. -/
def gridCells (s : DualCipher) : List Nat := (gridRows s).flatten

instance (s : DualCipher) (ch : Nat) : Decidable (InGrid s ch) := by
  unfold InGrid; infer_instance

/-- The grid sequence in the words of the specification: the keyword's letters,
uppercased and with `J` replaced by `I`, in first-occurrence order without
repeats, followed by the letters of `A..Z` except `J` not yet present, in
alphabetical order. -/
def specGridSequence (K : List Nat) : List Nat :=
  let kw := firstOccurrences ((K.filter isalpha).map (fun ch => mergeJ (toupper ch)))
  kw ++ gridLetters.filter (fun c => decide (c ∉ kw))

/-! ## Characters -/

theorem isalpha_iff (c : Nat) :
    isalpha c = true ↔ (65 ≤ c ∧ c ≤ 90) ∨ (97 ≤ c ∧ c ≤ 122) := by
  simp [isalpha]

theorem isUpper_toupper {c : Nat} (h : isalpha c = true) : IsUpper (toupper c) := by
  rw [isalpha_iff] at h
  unfold IsUpper toupper
  split <;> omega

theorem isUpper_of_isalpha_toupper {c : Nat} (h : isalpha (toupper c) = true) :
    IsUpper (toupper c) := by
  rw [isalpha_iff] at h
  unfold toupper at h ⊢
  unfold IsUpper
  split at h <;> split <;> omega

theorem isalpha_of_isUpper {c : Nat} (h : IsUpper c) : isalpha c = true := by
  rw [isalpha_iff]; exact Or.inl h

theorem toupper_of_isUpper {c : Nat} (h : IsUpper c) : toupper c = c := by
  unfold IsUpper at h
  unfold toupper
  split <;> omega

theorem alpha_eq : alpha = List.range' 65 26 := by decide

theorem mem_range_iff (c : Nat) : c ∈ List.range' 65 26 ↔ IsUpper c := by
  rw [List.mem_range'_1]; unfold IsUpper; omega

/-! ## Loops that push onto an accumulator -/

theorem foldl_push_filter {α β : Type} (p : α → Bool) (f : α → β) (l : List α)
    (init : List β) :
    l.foldl (fun out c => if p c = true then out ++ [f c] else out) init
      = init ++ (l.filter p).map f := by
  induction l generalizing init with
  | nil => simp
  | cons x xs ih =>
    simp only [List.foldl_cons, ih, List.filter_cons]
    by_cases hx : p x = true <;> simp [hx]

theorem foldl_push_map {α β : Type} (f : α → β) (l : List α) (init : List β) :
    l.foldl (fun out c => out ++ [f c]) init = init ++ l.map f := by
  induction l generalizing init with
  | nil => simp
  | cons x xs ih => simp [ih]

theorem normalizeLetters_eq (s : List Nat) :
    normalizeLetters s = (s.filter isalpha).map toupper := by
  unfold normalizeLetters
  simpa using foldl_push_filter isalpha toupper s []

theorem cleanForPlayfair_eq (raw : List Nat) :
    cleanForPlayfair raw = (raw.filter isalpha).map (fun ch => mergeJ (toupper ch)) := by
  unfold cleanForPlayfair
  simpa [mergeJ] using foldl_push_filter isalpha (fun ch => mergeJ (toupper ch)) raw []

theorem normalizeLetters_isUpper (s : List Nat) : ∀ c ∈ normalizeLetters s, IsUpper c := by
  intro c hc
  rw [normalizeLetters_eq] at hc
  simp only [List.mem_map, List.mem_filter] at hc
  obtain ⟨a, ⟨_, ha⟩, rfl⟩ := hc
  exact isUpper_toupper ha

theorem normalizeLetters_of_isUpper (s : List Nat) (h : ∀ c ∈ s, IsUpper c) :
    normalizeLetters s = s := by
  rw [normalizeLetters_eq]
  have h1 : s.filter isalpha = s :=
    List.filter_eq_self.2 (fun c hc => isalpha_of_isUpper (h c hc))
  rw [h1]
  calc s.map toupper = s.map id :=
        List.map_congr_left (fun c hc => toupper_of_isUpper (h c hc))
    _ = s := List.map_id s

/-! ## First-occurrence order -/

theorem firstOccurrences_filter (p : Nat → Bool) (l : List Nat) :
    firstOccurrences (l.filter p) = (firstOccurrences l).filter p := by
  induction l with
  | nil => rfl
  | cons x xs ih =>
    by_cases hx : p x = true
    · simp only [List.filter_cons, hx, if_true, firstOccurrences, ih, List.filter_filter]
      congr 1
      apply List.filter_congr
      intro y _
      exact Bool.and_comm _ _
    · have hf : (x :: xs).filter p = xs.filter p := by simp [List.filter_cons, hx]
      rw [hf, ih, firstOccurrences, List.filter_cons, if_neg hx, List.filter_filter]
      apply List.filter_congr
      intro y _
      by_cases hy : y = x
      · subst hy; simp [hx]
      · simp [hy]

theorem mem_firstOccurrences (l : List Nat) (c : Nat) :
    c ∈ firstOccurrences l ↔ c ∈ l := by
  induction l with
  | nil => simp [firstOccurrences]
  | cons x xs ih =>
    simp only [firstOccurrences, List.mem_cons, List.mem_filter, ih, decide_eq_true_eq]
    by_cases h : c = x <;> simp [h]

theorem nodup_firstOccurrences (l : List Nat) : (firstOccurrences l).Nodup := by
  induction l with
  | nil => simp [firstOccurrences]
  | cons x xs ih =>
    simp only [firstOccurrences, List.nodup_cons, List.mem_filter, decide_eq_true_eq]
    exact ⟨fun h => h.2 rfl, ih.filter _⟩

theorem firstOccurrences_of_nodup (l : List Nat) (h : l.Nodup) : firstOccurrences l = l := by
  induction l with
  | nil => rfl
  | cons x xs ih =>
    rw [List.nodup_cons] at h
    simp only [firstOccurrences, ih h.2]
    congr 1
    apply List.filter_eq_self.2
    intro y hy
    simp only [decide_eq_true_eq]
    rintro rfl
    exact h.1 hy

/-- The loops `if (P(c) && acc.find(c) == npos) acc.push_back(c)` append to
`acc` the first occurrences of the admissible characters not yet in `acc`. -/
theorem foldl_pushNew (P : Nat → Bool) (l acc : List Nat) :
    l.foldl (fun acc c => if P c = true ∧ c ∉ acc then acc ++ [c] else acc) acc
      = acc ++ firstOccurrences (l.filter (fun c => P c && decide (c ∉ acc))) := by
  induction l generalizing acc with
  | nil => simp [firstOccurrences]
  | cons x xs ih =>
    simp only [List.foldl_cons]
    by_cases hx : P x = true ∧ x ∉ acc
    · rw [if_pos hx, ih]
      have hf : (x :: xs).filter (fun c => P c && decide (c ∉ acc))
          = x :: xs.filter (fun c => P c && decide (c ∉ acc)) := by
        simp [List.filter_cons, hx.1, hx.2]
      rw [hf, firstOccurrences, firstOccurrences_filter, firstOccurrences_filter,
        List.filter_filter, List.append_assoc]
      simp only [List.singleton_append]
      congr 2
      apply List.filter_congr
      intro y _
      by_cases hy : y = x <;> simp [hy, Bool.and_comm]
    · rw [if_neg hx, ih]
      have hf : (x :: xs).filter (fun c => P c && decide (c ∉ acc))
          = xs.filter (fun c => P c && decide (c ∉ acc)) := by
        rw [List.filter_cons]
        have : (P x && decide (x ∉ acc)) = false := by
          by_cases h1 : P x = true
          · have : x ∈ acc := by by_contra h2; exact hx ⟨h1, h2⟩
            simp [this]
          · simp [h1]
        rw [this]; rfl
      rw [hf]

/-! ## The substitution alphabet and the Playfair key string -/

/-- Closed form of `buildKeywordAlphabet`. -/
theorem buildKeywordAlphabet_eq (rawKey : List Nat) :
    buildKeywordAlphabet rawKey
      = firstOccurrences ((rawKey.map toupper).filter isalpha)
        ++ (List.range' 65 26).filter (fun c =>
            decide (c ∉ firstOccurrences ((rawKey.map toupper).filter isalpha))) := by
  unfold buildKeywordAlphabet
  have h1 := foldl_pushNew isalpha (rawKey.map toupper) []
  simp only [List.not_mem_nil, not_false_eq_true, decide_True, Bool.and_true,
    List.nil_append] at h1
  have h2 := foldl_pushNew (fun _ => true) (List.range' 65 26)
    (firstOccurrences ((rawKey.map toupper).filter isalpha))
  simp only [true_and, Bool.true_and] at h2
  simp only [h1, h2]
  rw [firstOccurrences_of_nodup _ ((List.nodup_range' 65 26).filter _)]

/-- Closed form of the key string of `buildPlayfairGrid`. -/
theorem playfairKey_eq (keyword : List Nat) :
    playfairKey keyword
      = firstOccurrences ((keyword.map (fun ch => mergeJ (toupper ch))).filter isalpha)
        ++ (List.range' 65 26).filter (fun c => decide (c ≠ 74) && decide (c ∉
            firstOccurrences ((keyword.map (fun ch => mergeJ (toupper ch))).filter isalpha))) := by
  unfold playfairKey
  have h1 := foldl_pushNew isalpha (keyword.map (fun ch => mergeJ (toupper ch))) []
  simp only [List.not_mem_nil, not_false_eq_true, decide_True, Bool.and_true,
    List.nil_append, List.foldl_map] at h1
  have h2 := foldl_pushNew (fun c => decide (c ≠ 74)) (List.range' 65 26)
    (firstOccurrences ((keyword.map (fun ch => mergeJ (toupper ch))).filter isalpha))
  have hstep : (fun (key : List Nat) (c : Nat) =>
        if c = 74 then key else if c ∉ key then key ++ [c] else key)
      = (fun key c => if decide (c ≠ 74) = true ∧ c ∉ key then key ++ [c] else key) := by
    funext key c
    by_cases h74 : c = 74 <;> simp [h74]
  simp only [mergeJ] at h1 h2 ⊢
  simp only [hstep, h1, h2]
  rw [firstOccurrences_of_nodup _ ((List.nodup_range' 65 26).filter _)]

theorem mem_buildKeywordAlphabet (rawKey : List Nat) (c : Nat) :
    c ∈ buildKeywordAlphabet rawKey ↔ IsUpper c := by
  rw [buildKeywordAlphabet_eq]
  simp only [List.mem_append, List.mem_filter, mem_firstOccurrences, List.mem_map,
    mem_range_iff, decide_eq_true_eq]
  constructor
  · rintro (⟨⟨x, _, rfl⟩, hx⟩ | ⟨h, _⟩)
    · exact isUpper_of_isalpha_toupper hx
    · exact h
  · intro h
    by_cases hm : (∃ a, a ∈ rawKey ∧ toupper a = c) ∧ isalpha c = true
    · exact Or.inl hm
    · exact Or.inr ⟨h, hm⟩

theorem nodup_buildKeywordAlphabet (rawKey : List Nat) :
    (buildKeywordAlphabet rawKey).Nodup := by
  rw [buildKeywordAlphabet_eq]
  refine List.Nodup.append (nodup_firstOccurrences _) ((List.nodup_range' 65 26).filter _) ?_
  intro c h1 h2
  simp only [List.mem_filter, decide_eq_true_eq] at h2
  exact h2.2 h1

theorem perm_buildKeywordAlphabet (rawKey : List Nat) :
    (buildKeywordAlphabet rawKey).Perm (List.range' 65 26) :=
  (List.perm_ext_iff_of_nodup (nodup_buildKeywordAlphabet rawKey) (List.nodup_range' 65 26)).2
    (fun c => by rw [mem_buildKeywordAlphabet, mem_range_iff])

theorem length_buildKeywordAlphabet (rawKey : List Nat) :
    (buildKeywordAlphabet rawKey).length = 26 := by
  rw [(perm_buildKeywordAlphabet rawKey).length_eq]; rfl

theorem isGridLetter_mergeJ {c : Nat} (h : isalpha (mergeJ (toupper c)) = true) :
    IsGridLetter (mergeJ (toupper c)) := by
  unfold mergeJ at h ⊢
  unfold IsGridLetter
  by_cases h74 : toupper c = 74
  · rw [if_pos h74]
    exact ⟨by unfold IsUpper; omega, by omega⟩
  · rw [if_neg h74] at h ⊢
    exact ⟨isUpper_of_isalpha_toupper h, h74⟩

theorem mem_playfairKey (keyword : List Nat) (c : Nat) :
    c ∈ playfairKey keyword ↔ IsGridLetter c := by
  rw [playfairKey_eq]
  simp only [List.mem_append, List.mem_filter, mem_firstOccurrences, List.mem_map,
    mem_range_iff, decide_eq_true_eq, Bool.and_eq_true]
  constructor
  · rintro (⟨⟨x, _, rfl⟩, hx⟩ | ⟨h, h74, _⟩)
    · exact isGridLetter_mergeJ hx
    · exact ⟨h, h74⟩
  · intro h
    by_cases hm : (∃ a, a ∈ keyword ∧ mergeJ (toupper a) = c) ∧ isalpha c = true
    · exact Or.inl hm
    · exact Or.inr ⟨h.1, h.2, hm⟩

theorem nodup_playfairKey (keyword : List Nat) : (playfairKey keyword).Nodup := by
  rw [playfairKey_eq]
  refine List.Nodup.append (nodup_firstOccurrences _) ((List.nodup_range' 65 26).filter _) ?_
  intro c h1 h2
  simp only [List.mem_filter, decide_eq_true_eq, Bool.and_eq_true] at h2
  exact h2.2.2 h1

theorem mem_gridLetters (c : Nat) : c ∈ gridLetters ↔ IsGridLetter c := by
  unfold gridLetters IsGridLetter
  rw [List.mem_filter, mem_range_iff, decide_eq_true_eq]

theorem perm_playfairKey (keyword : List Nat) : (playfairKey keyword).Perm gridLetters :=
  (List.perm_ext_iff_of_nodup (nodup_playfairKey keyword)
      ((List.nodup_range' 65 26).filter _)).2
    (fun c => by rw [mem_playfairKey]; exact (mem_gridLetters c).symm)

theorem length_playfairKey (keyword : List Nat) : (playfairKey keyword).length = 25 := by
  rw [(perm_playfairKey keyword).length_eq]; rfl

/-! ## The grid -/

theorem finRange_five : List.finRange 5 = [0, 1, 2, 3, 4] := by decide

/-- After the populating loops every cell holds the key character of its
row-major index, whatever the grid held before. -/
theorem fillGrid_cell (key : List Nat) (g : Fin 5 → Fin 5 → Nat) (r c : Fin 5) :
    (fillGrid key g).1 r c = key.getD (5 * r.val + c.val) 0 := by
  unfold fillGrid
  simp only [finRange_five, List.foldl_cons, List.foldl_nil, setCell]
  fin_cases r <;> fin_cases c <;> simp

theorem setKeyword_keyword (s : DualCipher) (k : List Nat) :
    (setKeyword s k).keyword = normalizeLetters k := rfl

theorem setKeyword_cell (s : DualCipher) (k : List Nat) (r c : Fin 5) :
    (setKeyword s k).playfairGrid r c
      = (playfairKey (normalizeLetters k)).getD (5 * r.val + c.val) 0 := by
  unfold setKeyword buildPlayfairGrid
  exact fillGrid_cell _ _ r c

/-- The state left by `setKeyword` does not depend on the state before. -/
theorem setKeyword_eq_fresh (s : DualCipher) (k : List Nat) :
    setKeyword s k = setKeyword fresh k := by
  have hg : (setKeyword s k).playfairGrid = (setKeyword fresh k).playfairGrid := by
    funext r c
    rw [setKeyword_cell, setKeyword_cell]
  have hk : (setKeyword s k).keyword = (setKeyword fresh k).keyword := rfl
  cases h1 : setKeyword s k
  cases h2 : setKeyword fresh k
  rw [h1, h2] at hg hk
  simp only at hg hk
  rw [hg, hk]

theorem gridOK_setKeyword (s : DualCipher) (k : List Nat) : GridOK (setKeyword s k) := by
  have hlen := length_playfairKey (normalizeLetters k)
  have hnd := nodup_playfairKey (normalizeLetters k)
  have hcell : ∀ r c : Fin 5, ∃ h : 5 * r.val + c.val < (playfairKey (normalizeLetters k)).length,
      (setKeyword s k).playfairGrid r c = (playfairKey (normalizeLetters k))[5 * r.val + c.val] := by
    intro r c
    have h : 5 * r.val + c.val < (playfairKey (normalizeLetters k)).length := by
      rw [hlen]; omega
    exact ⟨h, by rw [setKeyword_cell, List.getD_eq_getElem _ _ h]⟩
  refine ⟨?_, ?_, ?_⟩
  · intro r c r' c' h
    obtain ⟨h1, e1⟩ := hcell r c
    obtain ⟨h2, e2⟩ := hcell r' c'
    rw [e1, e2] at h
    have := (List.Nodup.getElem_inj_iff hnd).1 h
    constructor <;> apply Fin.ext <;> omega
  · intro r c
    obtain ⟨h1, e1⟩ := hcell r c
    rw [e1, ← mem_playfairKey (normalizeLetters k)]
    exact List.getElem_mem _
  · intro ch hch
    rw [← mem_playfairKey (normalizeLetters k)] at hch
    obtain ⟨i, hi, rfl⟩ := List.getElem_of_mem hch
    rw [hlen] at hi
    refine ⟨⟨i / 5, by omega⟩, ⟨i % 5, by omega⟩, ?_⟩
    have hi5 : 5 * (i / 5) + i % 5 = i := by omega
    rw [setKeyword_cell]
    simp only [hi5]
    exact List.getD_eq_getElem _ _ (by omega)

/-! ## Grid lookup -/

theorem findSome?_of_unique {α β : Type} (f : α → Option β) (l : List α) (x : α) (y : β)
    (hx : x ∈ l) (hfx : f x = some y) (huniq : ∀ x' ∈ l, ∀ y', f x' = some y' → y' = y) :
    l.findSome? f = some y := by
  induction l with
  | nil => simp at hx
  | cons a as ih =>
    rw [List.findSome?_cons]
    cases hfa : f a with
    | some y' =>
      simp only
      rw [huniq a (List.mem_cons_self _ _) y' hfa]
    | none =>
      simp only
      rcases List.mem_cons.1 hx with rfl | hmem
      · rw [hfa] at hfx; cases hfx
      · exact ih hmem (fun x' hx' => huniq x' (List.mem_cons_of_mem _ hx'))

/-- In a grid of pairwise distinct cells the scan finds a cell's own
coordinates. -/
theorem findPosInGrid_cell (s : DualCipher) (hs : GridOK s) (r c : Fin 5) :
    findPosInGrid s (s.playfairGrid r c) = ((r.val : Int), (c.val : Int)) := by
  have h74 : s.playfairGrid r c ≠ 74 := (hs.letter r c).2
  unfold findPosInGrid
  simp only [if_neg h74]
  have hinner : ∀ r' : Fin 5, ∀ y,
      (List.finRange 5).findSome? (fun c' =>
        if s.playfairGrid r' c' = s.playfairGrid r c then some (r', c') else none) = some y →
      y = (r, c) := by
    intro r' y hy
    obtain ⟨c', _, hc'⟩ := List.exists_of_findSome?_eq_some hy
    by_cases he : s.playfairGrid r' c' = s.playfairGrid r c
    · rw [if_pos he] at hc'
      obtain ⟨h1, h2⟩ := hs.inj _ _ _ _ he
      cases hc'
      rw [h1, h2]
    · rw [if_neg he] at hc'; cases hc'
  have hrow : (List.finRange 5).findSome? (fun c' =>
        if s.playfairGrid r c' = s.playfairGrid r c then some (r, c') else none) = some (r, c) :=
    findSome?_of_unique _ _ c (r, c) (List.mem_finRange c) (by simp)
      (fun c' _ y' hy' => by
        by_cases he : s.playfairGrid r c' = s.playfairGrid r c
        · rw [if_pos he] at hy'
          cases hy'
          rw [(hs.inj _ _ _ _ he).2]
        · rw [if_neg he] at hy'; cases hy')
  rw [findSome?_of_unique _ _ r (r, c) (List.mem_finRange r) hrow
    (fun r' _ y' hy' => hinner r' y' hy')]

theorem gridAt_coe (s : DualCipher) (r c : Fin 5) :
    gridAt s (r.val : Int) (c.val : Int) = some (s.playfairGrid r c) := by
  unfold gridAt
  have h : 0 ≤ (r.val : Int) ∧ (r.val : Int) < 5 ∧ 0 ≤ (c.val : Int) ∧ (c.val : Int) < 5 := by
    omega
  rw [dif_pos h]
  simp

theorem gridAt_none_of_neg_col (s : DualCipher) (r : Int) : gridAt s r (-1) = none := by
  unfold gridAt
  rw [dif_neg (by omega)]

theorem tmod_succ_coe (i : Fin 5) :
    Int.tmod ((i.val : Int) + 1) 5 = ((i + 1 : Fin 5).val : Int) := by
  fin_cases i <;> rfl

theorem tmod_pred_coe (i : Fin 5) :
    Int.tmod ((i.val : Int) + 4) 5 = ((i + 4 : Fin 5).val : Int) := by
  fin_cases i <;> rfl

theorem coe_eq_iff (i j : Fin 5) : ((i.val : Int) = (j.val : Int)) ↔ i = j := by
  constructor
  · intro h; apply Fin.ext; omega
  · rintro rfl; rfl

theorem encryptPair_cells (s : DualCipher) (hs : GridOK s) (r1 c1 r2 c2 : Fin 5) :
    encryptPair s (s.playfairGrid r1 c1) (s.playfairGrid r2 c2)
      = some (encryptCells s r1 c1 r2 c2) := by
  unfold encryptPair encryptCells
  simp only [findPosInGrid_cell s hs, coe_eq_iff, tmod_succ_coe, gridAt_coe]
  by_cases hr : r1 = r2
  · simp [hr]
  · by_cases hc : c1 = c2
    · simp [hr, hc]
    · simp [hr, hc]

theorem decryptPair_cells (s : DualCipher) (hs : GridOK s) (r1 c1 r2 c2 : Fin 5) :
    decryptPair s (s.playfairGrid r1 c1) (s.playfairGrid r2 c2)
      = some (decryptCells s r1 c1 r2 c2) := by
  unfold decryptPair decryptCells
  simp only [findPosInGrid_cell s hs, coe_eq_iff, tmod_pred_coe, gridAt_coe]
  by_cases hr : r1 = r2
  · simp [hr]
  · by_cases hc : c1 = c2
    · simp [hr, hc]
    · simp [hr, hc]

theorem fin5_succ_pred (i : Fin 5) : i + 1 + 4 = i := by fin_cases i <;> rfl

theorem fin5_pred_succ (i : Fin 5) : i + 4 + 1 = i := by fin_cases i <;> rfl

/-- One pair: decrypting the encrypted pair gives the pair back. -/
theorem decryptPair_encryptPair (s : DualCipher) (hs : GridOK s) (r1 c1 r2 c2 : Fin 5) :
    ∃ x y, encryptPair s (s.playfairGrid r1 c1) (s.playfairGrid r2 c2) = some (x, y)
      ∧ (∃ r c, s.playfairGrid r c = x) ∧ (∃ r c, s.playfairGrid r c = y)
      ∧ decryptPair s x y = some (s.playfairGrid r1 c1, s.playfairGrid r2 c2) := by
  rw [encryptPair_cells s hs]
  unfold encryptCells
  by_cases hr : r1 = r2
  · subst hr
    refine ⟨_, _, by rw [if_pos rfl], ⟨_, _, rfl⟩, ⟨_, _, rfl⟩, ?_⟩
    rw [decryptPair_cells s hs]
    unfold decryptCells
    rw [if_pos rfl, fin5_succ_pred, fin5_succ_pred]
  · by_cases hc : c1 = c2
    · subst hc
      refine ⟨_, _, by rw [if_neg hr, if_pos rfl], ⟨_, _, rfl⟩, ⟨_, _, rfl⟩, ?_⟩
      rw [decryptPair_cells s hs]
      unfold decryptCells
      have hr' : r1 + 1 ≠ r2 + 1 := fun h => hr (add_right_cancel h)
      rw [if_neg hr', if_pos rfl, fin5_succ_pred, fin5_succ_pred]
    · refine ⟨_, _, by rw [if_neg hr, if_neg hc], ⟨_, _, rfl⟩, ⟨_, _, rfl⟩, ?_⟩
      rw [decryptPair_cells s hs]
      unfold decryptCells
      rw [if_neg hr, if_neg (Ne.symm hc)]

/-- One pair: encrypting the decrypted pair gives the pair back. -/
theorem encryptPair_decryptPair (s : DualCipher) (hs : GridOK s) (r1 c1 r2 c2 : Fin 5) :
    ∃ x y, decryptPair s (s.playfairGrid r1 c1) (s.playfairGrid r2 c2) = some (x, y)
      ∧ (∃ r c, s.playfairGrid r c = x) ∧ (∃ r c, s.playfairGrid r c = y)
      ∧ encryptPair s x y = some (s.playfairGrid r1 c1, s.playfairGrid r2 c2) := by
  rw [decryptPair_cells s hs]
  unfold decryptCells
  by_cases hr : r1 = r2
  · subst hr
    refine ⟨_, _, by rw [if_pos rfl], ⟨_, _, rfl⟩, ⟨_, _, rfl⟩, ?_⟩
    rw [encryptPair_cells s hs]
    unfold encryptCells
    rw [if_pos rfl, fin5_pred_succ, fin5_pred_succ]
  · by_cases hc : c1 = c2
    · subst hc
      refine ⟨_, _, by rw [if_neg hr, if_pos rfl], ⟨_, _, rfl⟩, ⟨_, _, rfl⟩, ?_⟩
      rw [encryptPair_cells s hs]
      unfold encryptCells
      have hr' : r1 + 4 ≠ r2 + 4 := fun h => hr (add_right_cancel h)
      rw [if_neg hr', if_pos rfl, fin5_pred_succ, fin5_pred_succ]
    · refine ⟨_, _, by rw [if_neg hr, if_neg hc], ⟨_, _, rfl⟩, ⟨_, _, rfl⟩, ?_⟩
      rw [encryptPair_cells s hs]
      unfold encryptCells
      rw [if_neg hr, if_neg (Ne.symm hc)]

/-! ## The Playfair transforms on whole strings -/

theorem inGrid_iff (s : DualCipher) (hs : GridOK s) (ch : Nat) :
    InGrid s ch ↔ IsGridLetter ch :=
  ⟨fun ⟨r, c, h⟩ => h ▸ hs.letter r c, hs.cover ch⟩

/-- Encryption of a grid-valid even-length string succeeds, keeps the length,
stays in the grid, and is undone by decryption. -/
theorem playfair_encrypt_then_decrypt (s : DualCipher) (hs : GridOK s) :
    ∀ S : List Nat, S.length % 2 = 0 → (∀ ch ∈ S, InGrid s ch) →
      ∃ C, playfairEncryptPrepared s S = some C ∧ C.length = S.length
        ∧ (∀ ch ∈ C, InGrid s ch) ∧ playfairDecryptCipher s C = some S
  | [], _, _ => ⟨[], rfl, rfl, by simp, rfl⟩
  | [_], h, _ => by simp at h
  | a :: b :: rest, h, hin => by
    obtain ⟨r1, c1, rfl⟩ := hin a (by simp)
    obtain ⟨r2, c2, rfl⟩ := hin _ (List.mem_cons_of_mem _ (List.mem_cons_self _ _))
    obtain ⟨C, hC, hlen, hCin, hdec⟩ := playfair_encrypt_then_decrypt s hs rest
      (by simp only [List.length_cons] at h; omega)
      (fun ch hch => hin ch (List.mem_cons_of_mem _ (List.mem_cons_of_mem _ hch)))
    obtain ⟨x, y, hxy, hx, hy, hback⟩ := decryptPair_encryptPair s hs r1 c1 r2 c2
    refine ⟨x :: y :: C, ?_, by simp [hlen], ?_, ?_⟩
    · simp [playfairEncryptPrepared, hxy, hC]
    · intro ch hch
      simp only [List.mem_cons] at hch
      rcases hch with rfl | rfl | hch
      · exact hx
      · exact hy
      · exact hCin ch hch
    · simp [playfairDecryptCipher, hback, hdec]

/-- Decryption of a grid-valid even-length string succeeds, keeps the length,
stays in the grid, and is undone by encryption. -/
theorem playfair_decrypt_then_encrypt (s : DualCipher) (hs : GridOK s) :
    ∀ S : List Nat, S.length % 2 = 0 → (∀ ch ∈ S, InGrid s ch) →
      ∃ P, playfairDecryptCipher s S = some P ∧ P.length = S.length
        ∧ (∀ ch ∈ P, InGrid s ch) ∧ playfairEncryptPrepared s P = some S
  | [], _, _ => ⟨[], rfl, rfl, by simp, rfl⟩
  | [_], h, _ => by simp at h
  | a :: b :: rest, h, hin => by
    obtain ⟨r1, c1, rfl⟩ := hin a (by simp)
    obtain ⟨r2, c2, rfl⟩ := hin _ (List.mem_cons_of_mem _ (List.mem_cons_self _ _))
    obtain ⟨C, hC, hlen, hCin, hdec⟩ := playfair_decrypt_then_encrypt s hs rest
      (by simp only [List.length_cons] at h; omega)
      (fun ch hch => hin ch (List.mem_cons_of_mem _ (List.mem_cons_of_mem _ hch)))
    obtain ⟨x, y, hxy, hx, hy, hback⟩ := encryptPair_decryptPair s hs r1 c1 r2 c2
    refine ⟨x :: y :: C, ?_, by simp [hlen], ?_, ?_⟩
    · simp [playfairDecryptCipher, hxy, hC]
    · intro ch hch
      simp only [List.mem_cons] at hch
      rcases hch with rfl | rfl | hch
      · exact hx
      · exact hy
      · exact hCin ch hch
    · simp [playfairEncryptPrepared, hback, hdec]

/-! ## Playfair preparation -/

theorem prepareLoop_eq (cleaned : List Nat) :
    ∀ (fuel i : Nat) (out : List Nat), cleaned.length - i ≤ fuel →
      prepareLoop cleaned fuel i out = out ++ loopOutput (cleaned.drop i) := by
  intro fuel
  induction fuel with
  | zero =>
    intro i out h
    have : cleaned.drop i = [] := List.drop_eq_nil_of_le (by omega)
    simp [prepareLoop, this, loopOutput]
  | succ fuel ih =>
    intro i out h
    unfold prepareLoop
    by_cases hi : i < cleaned.length
    · rw [if_pos hi]
      have hd : cleaned.drop i = cleaned[i] :: cleaned.drop (i + 1) :=
        List.drop_eq_getElem_cons hi
      by_cases hi1 : i + 1 < cleaned.length
      · have hd1 : cleaned.drop (i + 1) = cleaned[i + 1] :: cleaned.drop (i + 1 + 1) :=
          List.drop_eq_getElem_cons hi1
        simp only [if_pos hi1, List.getD_eq_getElem _ _ hi, List.getD_eq_getElem _ _ hi1]
        by_cases hab : cleaned[i] = cleaned[i + 1]
        · rw [if_pos hab, ih _ _ (by omega), hd, hd1, loopOutput, if_pos hab, ← hd1]
          simp
        · rw [if_neg hab, ih _ _ (by omega), hd, hd1, loopOutput, if_neg hab]
          simp
      · have hd1 : cleaned.drop (i + 1) = [] := List.drop_eq_nil_of_le (by omega)
        simp only [if_neg hi1, List.getD_eq_getElem _ _ hi]
        rw [ih _ _ (by omega), hd, hd1, loopOutput]
        simp [loopOutput]
    · rw [if_neg hi]
      have : cleaned.drop i = [] := List.drop_eq_nil_of_le (by omega)
      simp [this, loopOutput]

theorem loopOutput_pad (l : List Nat) :
    (if (loopOutput l).length % 2 = 1 then loopOutput l ++ [88] else loopOutput l) = prep l := by
  induction l using prep.induct with
  | case1 => rfl
  | case2 a => rfl
  | case3 b rest ih =>
    rw [loopOutput, prep, if_pos rfl, if_pos rfl, ← ih]
    simp only [List.length_cons, List.cons_append]
    have e : ((loopOutput (b :: rest)).length + 1 + 1) % 2 = (loopOutput (b :: rest)).length % 2 := by
      omega
    rw [e]
    split <;> rfl
  | case4 a b rest hab ih =>
    rw [loopOutput, prep, if_neg hab, if_neg hab, ← ih]
    simp only [List.length_cons, List.cons_append]
    have e : ((loopOutput rest).length + 1 + 1) % 2 = (loopOutput rest).length % 2 := by
      omega
    rw [e]
    split <;> rfl

/-- The source's preparation is the greedy pairing of the cleaned text. -/
theorem prepareForPlayfair_eq (raw : List Nat) :
    prepareForPlayfair raw = prep (cleanForPlayfair raw) := by
  unfold prepareForPlayfair
  simp only
  rw [prepareLoop_eq _ _ _ _ (by omega)]
  simpa using loopOutput_pad (cleanForPlayfair raw)

theorem prep_length_even (l : List Nat) : (prep l).length % 2 = 0 := by
  induction l using prep.induct with
  | case1 => rfl
  | case2 a => simp [prep]
  | case3 b rest ih => rw [prep, if_pos rfl]; simp only [List.length_cons]; omega
  | case4 a b rest hab ih => rw [prep, if_neg hab]; simp only [List.length_cons]; omega

theorem mem_prep (l : List Nat) : ∀ c ∈ prep l, c ∈ l ∨ c = 88 := by
  induction l using prep.induct with
  | case1 => intro c hc; simp [prep] at hc
  | case2 a => intro c hc; simp [prep] at hc; simpa using hc
  | case3 b rest ih =>
    intro c hc
    rw [prep, if_pos rfl] at hc
    simp only [List.mem_cons] at hc ⊢
    rcases hc with h | h | h
    · exact Or.inl (Or.inl h)
    · exact Or.inr h
    · rcases ih c h with h' | h'
      · exact Or.inl (Or.inr (List.mem_cons.1 h'))
      · exact Or.inr h'
  | case4 a b rest hab ih =>
    intro c hc
    rw [prep, if_neg hab] at hc
    simp only [List.mem_cons] at hc ⊢
    rcases hc with h | h | h
    · exact Or.inl (Or.inl h)
    · exact Or.inl (Or.inr (Or.inl h))
    · rcases ih c h with h' | h'
      · exact Or.inl (Or.inr (Or.inr h'))
      · exact Or.inr h'

theorem prep_ne_nil {l : List Nat} (h : l ≠ []) : prep l ≠ [] := by
  match l, h with
  | [a], _ => simp [prep]
  | a :: b :: rest, _ =>
    rw [prep]
    split <;> simp

/-- In the greedy pairing a digraph of two equal letters can only be `XX`. -/
theorem prep_digraph (l : List Nat) :
    ∀ k, 2 * k + 1 < (prep l).length →
      (prep l).getD (2 * k) 0 = (prep l).getD (2 * k + 1) 0 → (prep l).getD (2 * k) 0 = 88 := by
  induction l using prep.induct with
  | case1 => intro k hk; simp [prep] at hk
  | case2 a =>
    intro k hk h
    simp only [prep, List.length_cons, List.length_nil] at hk
    have : k = 0 := by omega
    subst this
    simp [prep] at h ⊢
    exact h
  | case3 b rest ih =>
    intro k
    rw [prep, if_pos rfl]
    cases k with
    | zero => intro _ h; simp at h ⊢; exact h
    | succ k =>
      intro hk h
      have e1 : 2 * (k + 1) = 2 * k + 1 + 1 := by ring
      have e2 : 2 * (k + 1) + 1 = 2 * k + 1 + 1 + 1 := by ring
      rw [e1] at h ⊢
      rw [e2] at hk
      simp only [List.getD_cons_succ, List.length_cons] at h hk ⊢
      exact ih k (by omega) h
  | case4 a b rest hab ih =>
    intro k
    rw [prep, if_neg hab]
    cases k with
    | zero => intro _ h; simp at h; exact absurd h hab
    | succ k =>
      intro hk h
      have e1 : 2 * (k + 1) = 2 * k + 1 + 1 := by ring
      have e2 : 2 * (k + 1) + 1 = 2 * k + 1 + 1 + 1 := by ring
      rw [e1] at h ⊢
      rw [e2] at hk
      simp only [List.getD_cons_succ, List.length_cons] at h hk ⊢
      exact ih k (by omega) h

theorem cleanForPlayfair_isGridLetter (raw : List Nat) :
    ∀ c ∈ cleanForPlayfair raw, IsGridLetter c := by
  intro c hc
  rw [cleanForPlayfair_eq] at hc
  simp only [List.mem_map, List.mem_filter] at hc
  obtain ⟨a, ⟨_, ha⟩, rfl⟩ := hc
  have hu := isUpper_toupper ha
  unfold mergeJ IsGridLetter
  unfold IsUpper at hu ⊢
  split <;> omega

theorem prepareForPlayfair_isGridLetter (raw : List Nat) :
    ∀ c ∈ prepareForPlayfair raw, IsGridLetter c := by
  intro c hc
  rw [prepareForPlayfair_eq] at hc
  rcases mem_prep _ c hc with h | rfl
  · exact cleanForPlayfair_isGridLetter raw c h
  · decide

/-! ## Keyword substitution -/

theorem foldl_push_ite {α : Type} (p : α → Prop) [DecidablePred p] (f g : α → Nat)
    (l : List α) (init : List Nat) :
    l.foldl (fun out c => if p c then out ++ [f c] else out ++ [g c]) init
      = init ++ l.map (fun c => if p c then f c else g c) := by
  induction l generalizing init with
  | nil => simp
  | cons x xs ih =>
    simp only [List.foldl_cons, ih, List.map_cons]
    by_cases hx : p x <;> simp [hx]

theorem alpha_indexOf : ∀ i, i < 26 → alpha.indexOf (65 + i) = i := by decide

theorem alpha_getD : ∀ i, i < 26 → alpha.getD i 0 = 65 + i := by decide

theorem alpha_length : alpha.length = 26 := by decide

/-- Closed form of `keywordEncrypt`: every letter of the normalized text is
replaced by the alphabet entry at its position in `A..Z`. -/
theorem keywordEncrypt_eq (s : DualCipher) (plain : List Nat) :
    keywordEncrypt s plain
      = (normalizeLetters plain).map
          (fun c => (buildKeywordAlphabet s.keyword).getD (c - 65) 0) := by
  unfold keywordEncrypt
  simp only
  rw [foldl_push_ite (fun c => alpha.indexOf c < alpha.length), List.nil_append]
  apply List.map_congr_left
  intro c hc
  have hu := normalizeLetters_isUpper plain c hc
  unfold IsUpper at hu
  have hi := alpha_indexOf (c - 65) (by omega)
  have e : 65 + (c - 65) = c := by omega
  rw [e] at hi
  simp only [hi, alpha_length]
  rw [if_pos (by omega)]

theorem keywordEncrypt_isUpper (s : DualCipher) (plain : List Nat) :
    ∀ c ∈ keywordEncrypt s plain, IsUpper c := by
  intro c hc
  rw [keywordEncrypt_eq] at hc
  obtain ⟨a, ha, rfl⟩ := List.mem_map.1 hc
  have hu := normalizeLetters_isUpper plain a ha
  unfold IsUpper at hu
  have hlt : a - 65 < (buildKeywordAlphabet s.keyword).length := by
    rw [length_buildKeywordAlphabet]; omega
  rw [List.getD_eq_getElem _ _ hlt, ← mem_buildKeywordAlphabet s.keyword]
  exact List.getElem_mem _

theorem keywordEncrypt_length (s : DualCipher) (plain : List Nat) :
    (keywordEncrypt s plain).length = (normalizeLetters plain).length := by
  rw [keywordEncrypt_eq, List.length_map]

/-- The substitution stage undoes itself on every text. -/
theorem keywordDecrypt_keywordEncrypt (s : DualCipher) (T : List Nat) :
    keywordDecrypt s (keywordEncrypt s T) = normalizeLetters T := by
  unfold keywordDecrypt
  simp only
  rw [normalizeLetters_of_isUpper _ (keywordEncrypt_isUpper s T),
    foldl_push_ite (fun c => (buildKeywordAlphabet s.keyword).indexOf c
      < (buildKeywordAlphabet s.keyword).length), List.nil_append, keywordEncrypt_eq,
    List.map_map]
  conv_rhs => rw [← List.map_id (normalizeLetters T)]
  apply List.map_congr_left
  intro c hc
  have hu := normalizeLetters_isUpper T c hc
  unfold IsUpper at hu
  have hlt : c - 65 < (buildKeywordAlphabet s.keyword).length := by
    rw [length_buildKeywordAlphabet]; omega
  simp only [Function.comp, List.getD_eq_getElem _ _ hlt,
    List.indexOf_getElem (nodup_buildKeywordAlphabet s.keyword) _ hlt, if_pos hlt, id]
  rw [alpha_getD _ (by omega)]
  omega

/-- With the identity alphabet both substitution directions only normalize. -/
theorem keyword_identity (s : DualCipher) (h : buildKeywordAlphabet s.keyword = alpha)
    (T : List Nat) :
    keywordEncrypt s T = normalizeLetters T ∧ keywordDecrypt s T = normalizeLetters T := by
  have henc : keywordEncrypt s T = normalizeLetters T := by
    rw [keywordEncrypt_eq, h]
    conv_rhs => rw [← List.map_id (normalizeLetters T)]
    apply List.map_congr_left
    intro c hc
    have hu := normalizeLetters_isUpper T c hc
    unfold IsUpper at hu
    rw [alpha_getD _ (by omega)]
    simp only [id]
    omega
  refine ⟨henc, ?_⟩
  have := keywordDecrypt_keywordEncrypt s T
  rw [henc] at this
  unfold keywordDecrypt at this ⊢
  simp only at this ⊢
  rw [normalizeLetters_of_isUpper _ (normalizeLetters_isUpper T)] at this
  exact this

/-! ## The grid read row-major -/

theorem gridCells_eq (s : DualCipher) :
    gridCells s = (List.range 25).map (fun i =>
      s.playfairGrid (Fin.ofNat (i / 5)) (Fin.ofNat (i % 5))) := by
  unfold gridCells gridRows
  rfl

theorem list_eq_map_getD (l : List Nat) (n : Nat) (h : l.length = n) :
    l = (List.range n).map (fun i => l.getD i 0) := by
  apply List.ext_getElem
  · simp [h]
  · intro i h1 h2
    rw [List.getElem_map, List.getElem_range, List.getD_eq_getElem _ _ h1]

theorem gridCells_setKeyword (s : DualCipher) (k : List Nat) :
    gridCells (setKeyword s k) = playfairKey (normalizeLetters k) := by
  rw [gridCells_eq]
  conv_rhs => rw [list_eq_map_getD _ 25 (length_playfairKey _)]
  apply List.map_congr_left
  intro i hi
  rw [List.mem_range] at hi
  rw [setKeyword_cell]
  congr 1
  have h1 : (Fin.ofNat (i / 5) : Fin 5).val = i / 5 := by
    show (i / 5) % 5 = i / 5
    omega
  have h2 : (Fin.ofNat (i % 5) : Fin 5).val = i % 5 := by
    show (i % 5) % 5 = i % 5
    omega
  rw [h1, h2]
  omega

theorem setKeyword_of_no_letters (s : DualCipher) (K : List Nat)
    (hK : ∀ c ∈ K, isalpha c = false) : setKeyword s K = setKeyword fresh [] := by
  have hn : normalizeLetters K = [] := by
    rw [normalizeLetters_eq, List.filter_eq_nil_iff.2 (fun c hc => by simp [hK c hc])]
    rfl
  have h1 : setKeyword s K = buildPlayfairGrid { s with keyword := normalizeLetters K } := rfl
  have h2 : setKeyword s [] = buildPlayfairGrid { s with keyword := [] } := rfl
  rw [h1, hn, ← h2, setKeyword_eq_fresh]

theorem cleanForPlayfair_length_of_isUpper (l : List Nat) (h : ∀ c ∈ l, IsUpper c) :
    (cleanForPlayfair l).length = l.length := by
  rw [cleanForPlayfair_eq, List.length_map,
    List.filter_eq_self.2 (fun c hc => isalpha_of_isUpper (h c hc))]

/-- The Playfair stage of `encrypt` succeeds on every plaintext and is undone
by `playfairDecryptCipher`. -/
theorem encrypt_spec (s0 : DualCipher) (K x : List Nat) :
    ∃ c, encrypt (setKeyword s0 K) x = some c
      ∧ c.length = (prepareForPlayfair (keywordEncrypt (setKeyword s0 K) x)).length
      ∧ (∀ ch ∈ c, IsGridLetter ch)
      ∧ playfairDecryptCipher (setKeyword s0 K) c
          = some (prepareForPlayfair (keywordEncrypt (setKeyword s0 K) x)) := by
  have hs := gridOK_setKeyword s0 K
  obtain ⟨C, hC, hlen, hin, hdec⟩ := playfair_encrypt_then_decrypt (setKeyword s0 K) hs
    (prepareForPlayfair (keywordEncrypt (setKeyword s0 K) x))
    (by rw [prepareForPlayfair_eq]; exact prep_length_even _)
    (fun ch hch => (inGrid_iff _ hs ch).2 (prepareForPlayfair_isGridLetter _ ch hch))
  exact ⟨C, hC, hlen, fun ch hch => (inGrid_iff _ hs ch).1 (hin ch hch), hdec⟩

/-! ## The claims -/

/-- C1: for every keyword `K` and text `T`, on the engine configured by
`setKeyword K`, `keywordDecrypt (keywordEncrypt T)` is `normalizeLetters T`,
which is the letters of `T` in order, uppercased, non-letters dropped. -/
theorem keywordDecrypt_keywordEncrypt_eq_normalizeLetters (s0 : DualCipher) (K T : List Nat) :
    keywordDecrypt (setKeyword s0 K) (keywordEncrypt (setKeyword s0 K) T)
        = normalizeLetters T
      ∧ normalizeLetters T = (T.filter isalpha).map toupper :=
  ⟨keywordDecrypt_keywordEncrypt (setKeyword s0 K) T, normalizeLetters_eq T⟩

/-- C2: for every keyword `K` and every even-length string `S` whose
characters all occur in the grid built from `K`, `playfairEncryptPrepared`
succeeds on `S` and `playfairDecryptCipher` maps its result back to `S`. -/
theorem playfairDecryptCipher_playfairEncryptPrepared (s0 : DualCipher) (K S : List Nat)
    (heven : S.length % 2 = 0) (hgrid : ∀ ch ∈ S, InGrid (setKeyword s0 K) ch) :
    (playfairEncryptPrepared (setKeyword s0 K) S).bind
        (playfairDecryptCipher (setKeyword s0 K)) = some S := by
  obtain ⟨C, hC, _, _, hdec⟩ :=
    playfair_encrypt_then_decrypt (setKeyword s0 K) (gridOK_setKeyword s0 K) S heven hgrid
  rw [hC, Option.some_bind, hdec]

set_option maxRecDepth 100000 in
/-- Witness for C2: keyword `KEY` and the pairs `KE` (same row), `KC` (same
column), `KD` (rectangle) and `KK` (one letter twice). -/
theorem playfairDecryptCipher_playfairEncryptPrepared_witness :
    (str "KEKCKDKK").length % 2 = 0
      ∧ (∀ ch ∈ str "KEKCKDKK", InGrid (setKeyword fresh (str "KEY")) ch)
      ∧ (playfairEncryptPrepared (setKeyword fresh (str "KEY")) (str "KEKCKDKK")).bind
          (playfairDecryptCipher (setKeyword fresh (str "KEY"))) = some (str "KEKCKDKK") :=
  ⟨by decide, by decide,
    playfairDecryptCipher_playfairEncryptPrepared fresh (str "KEY") (str "KEKCKDKK")
      (by decide) (by decide)⟩

/-- C3: for every keyword `K` and plaintext `x`, `encrypt x` succeeds with a
ciphertext `c` whose Playfair decryption is `prepareForPlayfair (keywordEncrypt x)`,
so that `decrypt c` is `keywordDecrypt (prepareForPlayfair (keywordEncrypt x))`. -/
theorem decrypt_encrypt (s0 : DualCipher) (K x : List Nat) :
    ∃ c, encrypt (setKeyword s0 K) x = some c
      ∧ playfairDecryptCipher (setKeyword s0 K) c
          = some (prepareForPlayfair (keywordEncrypt (setKeyword s0 K) x))
      ∧ decrypt (setKeyword s0 K) c
          = some (keywordDecrypt (setKeyword s0 K)
              (prepareForPlayfair (keywordEncrypt (setKeyword s0 K) x))) := by
  obtain ⟨c, hc, _, _, hdec⟩ := encrypt_spec s0 K x
  refine ⟨c, hc, hdec, ?_⟩
  unfold decrypt
  rw [hdec]
  rfl

set_option maxRecDepth 100000 in
/-- C4: for every keyword `K` and plaintext `x`, `encrypt x` succeeds, its
result has only uppercase letters and even length, and is non-empty when `x`
contains a letter; keyword `KEY` and plaintext `HELLO WORLD` give
`HYNULOXLPLGA`. -/
theorem encrypt_uppercase_even (s0 : DualCipher) (K x : List Nat) :
    (∃ c, encrypt (setKeyword s0 K) x = some c
      ∧ (∀ ch ∈ c, IsUpper ch)
      ∧ c.length % 2 = 0
      ∧ ((∃ ch ∈ x, isalpha ch = true) → c ≠ []))
    ∧ encrypt (setKeyword s0 (str "KEY")) (str "HELLO WORLD") = some (str "HYNULOXLPLGA") := by
  constructor
  · obtain ⟨c, hc, hlen, hletters, _⟩ := encrypt_spec s0 K x
    refine ⟨c, hc, fun ch hch => (hletters ch hch).1, ?_, ?_⟩
    · rw [hlen, prepareForPlayfair_eq]; exact prep_length_even _
    · rintro ⟨ch, hch, halpha⟩ hnil
      have h1 : (normalizeLetters x).length ≠ 0 := by
        rw [normalizeLetters_eq, List.length_map]
        have := List.length_pos_of_mem (List.mem_filter.2 ⟨hch, halpha⟩)
        omega
      have h2 : (cleanForPlayfair (keywordEncrypt (setKeyword s0 K) x)).length ≠ 0 := by
        rw [cleanForPlayfair_length_of_isUpper _ (keywordEncrypt_isUpper _ x),
          keywordEncrypt_length]
        exact h1
      have h3 : prepareForPlayfair (keywordEncrypt (setKeyword s0 K) x) ≠ [] := by
        rw [prepareForPlayfair_eq]
        exact prep_ne_nil (fun h => h2 (by rw [h]; rfl))
      rw [hnil] at hlen
      exact h3 (List.length_eq_zero.1 hlen.symm)
  · rw [setKeyword_eq_fresh]
    decide

/-- Witness for C4: keyword `KEY`, plaintext `HELLO WORLD`, which contains the
letter `H`. -/
theorem encrypt_uppercase_even_witness :
    (∃ ch ∈ str "HELLO WORLD", isalpha ch = true)
      ∧ ∃ c, encrypt (setKeyword fresh (str "KEY")) (str "HELLO WORLD") = some c
          ∧ (∀ ch ∈ c, IsUpper ch) ∧ c.length % 2 = 0 ∧ c ≠ [] :=
  ⟨by decide, by
    obtain ⟨c, hc, hup, heven, hne⟩ :=
      (encrypt_uppercase_even fresh (str "KEY") (str "HELLO WORLD")).1
    exact ⟨c, hc, hup, heven, hne (by decide)⟩⟩

/-- C5: for every keyword string `K`, `buildKeywordAlphabet K` has length 26
and contains each of the letters `A..Z` exactly once. -/
theorem buildKeywordAlphabet_permutation (K : List Nat) :
    (buildKeywordAlphabet K).length = 26
      ∧ ∀ c, IsUpper c → (buildKeywordAlphabet K).count c = 1 :=
  ⟨length_buildKeywordAlphabet K, fun c hc =>
    List.count_eq_one_of_mem (nodup_buildKeywordAlphabet K)
      ((mem_buildKeywordAlphabet K c).2 hc)⟩

/-- Witness for C5: the letter `K` in the alphabet of the keyword `Key!`. -/
theorem buildKeywordAlphabet_permutation_witness :
    IsUpper 75 ∧ (buildKeywordAlphabet (str "Key!")).count 75 = 1 :=
  ⟨by decide, (buildKeywordAlphabet_permutation (str "Key!")).2 75 (by decide)⟩

/-- C6: for every keyword string `K`, the grid left by `setKeyword K` holds 25
pairwise distinct letters: every letter of `A..Z` except `J` exactly once, and
never `J`. -/
theorem setKeyword_grid_letters (s0 : DualCipher) (K : List Nat) :
    (gridCells (setKeyword s0 K)).length = 25
      ∧ (gridCells (setKeyword s0 K)).Nodup
      ∧ (∀ c, IsUpper c → c ≠ 74 → (gridCells (setKeyword s0 K)).count c = 1)
      ∧ 74 ∉ gridCells (setKeyword s0 K) := by
  rw [gridCells_setKeyword]
  refine ⟨length_playfairKey _, nodup_playfairKey _, fun c hc h74 => ?_, fun h => ?_⟩
  · exact List.count_eq_one_of_mem (nodup_playfairKey _) ((mem_playfairKey _ c).2 ⟨hc, h74⟩)
  · exact ((mem_playfairKey _ 74).1 h).2 rfl

/-- Witness for C6: the letter `I` in the grid of the keyword `JOKER`. -/
theorem setKeyword_grid_letters_witness :
    IsUpper 73 ∧ 73 ≠ 74 ∧ (gridCells (setKeyword fresh (str "JOKER"))).count 73 = 1 :=
  ⟨by decide, by decide,
    (setKeyword_grid_letters fresh (str "JOKER")).2.2.1 73 (by decide) (by decide)⟩

theorem toupper_toupper (c : Nat) : toupper (toupper c) = toupper c := by
  unfold toupper
  by_cases h : 97 ≤ c ∧ c ≤ 122
  · rw [if_pos h, if_neg (by omega)]
  · rw [if_neg h, if_neg h]

theorem playfairKey_normalizeLetters (K : List Nat) :
    playfairKey (normalizeLetters K) = specGridSequence K := by
  have hl : ((normalizeLetters K).map (fun ch => mergeJ (toupper ch))).filter isalpha
      = (K.filter isalpha).map (fun ch => mergeJ (toupper ch)) := by
    rw [normalizeLetters_eq, List.map_map]
    have hm : (fun ch => mergeJ (toupper ch)) ∘ toupper = fun ch => mergeJ (toupper ch) := by
      funext ch
      simp [Function.comp, toupper_toupper]
    rw [hm, ← cleanForPlayfair_eq]
    exact List.filter_eq_self.2 (fun c hc =>
      isalpha_of_isUpper (cleanForPlayfair_isGridLetter K c hc).1)
  rw [playfairKey_eq, hl]
  unfold specGridSequence gridLetters
  simp only [List.filter_filter]
  congr 1
  apply List.filter_congr
  intro c _
  exact Bool.and_comm _ _

set_option maxRecDepth 100000 in
/-- C7: for every keyword `K`, the grid read row-major is the keyword's
letters (uppercased, `J` replaced by `I`) in first-occurrence order without
repeats, followed by the missing letters of `A..Z` except `J` in alphabetical
order; for `MONARCHY` the rows are `MONAR`, `CHYBD`, `EFGIK`, `LPQST`, `UVWXZ`. -/
theorem setKeyword_grid_row_major (s0 : DualCipher) (K : List Nat) :
    gridCells (setKeyword s0 K) = specGridSequence K
      ∧ gridRows (setKeyword s0 (str "MONARCHY"))
          = [str "MONAR", str "CHYBD", str "EFGIK", str "LPQST", str "UVWXZ"] := by
  refine ⟨by rw [gridCells_setKeyword, playfairKey_normalizeLetters], ?_⟩
  rw [setKeyword_eq_fresh]
  decide

/-- C8, as stated, fails: the input `XX` is prepared as `XXXX`, whose first
digraph (positions 0 and 1) consists of two identical letters. -/
theorem prepareForPlayfair_identical_digraph :
    prepareForPlayfair (str "XX") = str "XXXX"
      ∧ 2 * 0 + 1 < (prepareForPlayfair (str "XX")).length
      ∧ (prepareForPlayfair (str "XX")).getD (2 * 0) 0
          = (prepareForPlayfair (str "XX")).getD (2 * 0 + 1) 0 := by
  decide

/-- C8, amended: for every input text, no digraph of `prepareForPlayfair text`
whose first letter is not `X` consists of two identical letters; `BALLOON` is
prepared as `BALXLOON`. -/
theorem prepareForPlayfair_digraph_distinct (raw : List Nat) (k : Nat)
    (hk : 2 * k + 1 < (prepareForPlayfair raw).length)
    (hX : (prepareForPlayfair raw).getD (2 * k) 0 ≠ 88) :
    (prepareForPlayfair raw).getD (2 * k) 0 ≠ (prepareForPlayfair raw).getD (2 * k + 1) 0
      ∧ prepareForPlayfair (str "BALLOON") = str "BALXLOON" := by
  refine ⟨fun h => hX ?_, by decide⟩
  rw [prepareForPlayfair_eq] at hk h ⊢
  exact prep_digraph _ k hk h

/-- Witness for the amended C8: the digraph `LX` (positions 2 and 3) of
`BALXLOON`. -/
theorem prepareForPlayfair_digraph_distinct_witness :
    2 * 1 + 1 < (prepareForPlayfair (str "BALLOON")).length
      ∧ (prepareForPlayfair (str "BALLOON")).getD (2 * 1) 0 ≠ 88
      ∧ (prepareForPlayfair (str "BALLOON")).getD (2 * 1) 0
          ≠ (prepareForPlayfair (str "BALLOON")).getD (2 * 1 + 1) 0 :=
  ⟨by decide, by decide,
    (prepareForPlayfair_digraph_distinct (str "BALLOON") 1 (by decide) (by decide)).1⟩

/-- C9: for every input text, `prepareForPlayfair text` has even length and
consists only of uppercase letters other than `J`; `HELLO` gives `HELXLO`. -/
theorem prepareForPlayfair_even_letters (raw : List Nat) :
    (prepareForPlayfair raw).length % 2 = 0
      ∧ (∀ c ∈ prepareForPlayfair raw, IsUpper c ∧ c ≠ 74)
      ∧ prepareForPlayfair (str "HELLO") = str "HELXLO"
      ∧ (prepareForPlayfair (str "HELLO")).length = 6 := by
  refine ⟨?_, prepareForPlayfair_isGridLetter raw, by decide, by decide⟩
  rw [prepareForPlayfair_eq]
  exact prep_length_even _

/-- Witness for C9: the first character of the preparation of `jam 1`. -/
theorem prepareForPlayfair_even_letters_witness :
    73 ∈ prepareForPlayfair (str "jam 1") ∧ IsUpper 73 ∧ 73 ≠ 74 :=
  ⟨by decide, (prepareForPlayfair_even_letters (str "jam 1")).2.1 73 (by decide)⟩

set_option maxRecDepth 100000 in
/-- C10: for a keyword without letters (the empty keyword included) the
substitution alphabet is `ABCDEFGHIJKLMNOPQRSTUVWXYZ`, `keywordEncrypt` and
`keywordDecrypt` both equal `normalizeLetters`, and the grid rows are `ABCDE`,
`FGHIK`, `LMNOP`, `QRSTU`, `VWXYZ`. -/
theorem setKeyword_no_letters (s0 : DualCipher) (K : List Nat)
    (hK : ∀ c ∈ K, isalpha c = false) :
    buildKeywordAlphabet (setKeyword s0 K).keyword = str "ABCDEFGHIJKLMNOPQRSTUVWXYZ"
      ∧ (∀ T, keywordEncrypt (setKeyword s0 K) T = normalizeLetters T
            ∧ keywordDecrypt (setKeyword s0 K) T = normalizeLetters T)
      ∧ gridRows (setKeyword s0 K)
          = [str "ABCDE", str "FGHIK", str "LMNOP", str "QRSTU", str "VWXYZ"] := by
  rw [setKeyword_of_no_letters s0 K hK]
  have ha : buildKeywordAlphabet (setKeyword fresh []).keyword = alpha := by decide
  exact ⟨ha, fun T => keyword_identity _ ha T, by decide⟩

/-- Witness for C10: the keyword `12 3!`, which contains no letter, and the
empty keyword. -/
theorem setKeyword_no_letters_witness :
    (∀ c ∈ str "12 3!", isalpha c = false)
      ∧ gridRows (setKeyword fresh (str "12 3!"))
          = [str "ABCDE", str "FGHIK", str "LMNOP", str "QRSTU", str "VWXYZ"]
      ∧ keywordEncrypt (setKeyword fresh []) (str "a-b") = normalizeLetters (str "a-b") :=
  ⟨by decide, (setKeyword_no_letters fresh (str "12 3!") (by decide)).2.2,
    ((setKeyword_no_letters fresh [] (by decide)).2.1 (str "a-b")).1⟩

/-! ## Lookup results in an arbitrary grid -/

theorem mergeJ_mergeJ (c : Nat) : mergeJ (mergeJ c) = mergeJ c := by
  unfold mergeJ
  by_cases h : c = 74
  · simp [h]
  · simp [h]

theorem findPosInGrid_mergeJ (s : DualCipher) (ch : Nat) :
    findPosInGrid s (mergeJ ch) = findPosInGrid s ch := by
  have h := mergeJ_mergeJ ch
  unfold mergeJ at h
  unfold findPosInGrid mergeJ
  simp only [h]

/-- The scan returns either the sentinel or the coordinates of a cell that
holds the character (with `J` read as `I`). -/
theorem findPosInGrid_cases (s : DualCipher) (ch : Nat) :
    findPosInGrid s ch = (-1, -1)
      ∨ ∃ r c : Fin 5, findPosInGrid s ch = ((r.val : Int), (c.val : Int))
          ∧ s.playfairGrid r c = mergeJ ch := by
  unfold findPosInGrid mergeJ
  simp only
  cases h : (List.finRange 5).findSome? (fun r =>
      (List.finRange 5).findSome? (fun c =>
        if s.playfairGrid r c = (if ch = 74 then 73 else ch) then some (r, c) else none)) with
  | none => exact Or.inl rfl
  | some p =>
    obtain ⟨r, c⟩ := p
    refine Or.inr ⟨r, c, rfl, ?_⟩
    obtain ⟨r', _, hr'⟩ := List.exists_of_findSome?_eq_some h
    obtain ⟨c', _, hc'⟩ := List.exists_of_findSome?_eq_some hr'
    by_cases he : s.playfairGrid r' c' = (if ch = 74 then 73 else ch)
    · rw [if_pos he] at hc'
      cases hc'
      exact he
    · rw [if_neg he] at hc'; cases hc'

/-- A character absent from the grid is answered by the sentinel. -/
theorem findPosInGrid_of_not_inGrid (s : DualCipher) (ch : Nat)
    (h : ¬ InGrid s (mergeJ ch)) : findPosInGrid s ch = (-1, -1) := by
  rcases findPosInGrid_cases s ch with h1 | ⟨r, c, _, hcell⟩
  · exact h1
  · exact absurd ⟨r, c, hcell⟩ h

theorem gridAt_neg_row (s : DualCipher) (c : Int) : gridAt s (-1) c = none := by
  unfold gridAt
  rw [dif_neg (by omega)]

/-- When a lookup of the pair answers the sentinel, the encrypting transform
indexes the grid with it: the read is outside the grid. -/
theorem encryptPair_of_sentinel (s : DualCipher) (a b : Nat)
    (h : findPosInGrid s a = (-1, -1) ∨ findPosInGrid s b = (-1, -1)) :
    encryptPair s a b = none := by
  unfold encryptPair
  rcases findPosInGrid_cases s a with ha | ⟨r1, c1, ha, _⟩ <;>
    rcases findPosInGrid_cases s b with hb | ⟨r2, c2, hb, _⟩
  · simp [ha, hb, gridAt_neg_row]
  · have h1 : ¬ ((-1 : Int) = (r2.val : Int)) := by omega
    have h2 : ¬ ((-1 : Int) = (c2.val : Int)) := by omega
    simp [ha, hb, gridAt_neg_row, h1, h2]
  · have h1 : ¬ ((r1.val : Int) = -1) := by omega
    have h2 : ¬ ((c1.val : Int) = -1) := by omega
    simp [ha, hb, gridAt_neg_row, gridAt_none_of_neg_col, h1, h2]
  · rcases h with h | h
    · rw [ha] at h
      have : (r1.val : Int) = -1 := congrArg Prod.fst h
      omega
    · rw [hb] at h
      have : (r2.val : Int) = -1 := congrArg Prod.fst h
      omega

/-- When a lookup of the pair answers the sentinel, the decrypting transform
indexes the grid with it: the read is outside the grid. -/
theorem decryptPair_of_sentinel (s : DualCipher) (a b : Nat)
    (h : findPosInGrid s a = (-1, -1) ∨ findPosInGrid s b = (-1, -1)) :
    decryptPair s a b = none := by
  unfold decryptPair
  rcases findPosInGrid_cases s a with ha | ⟨r1, c1, ha, _⟩ <;>
    rcases findPosInGrid_cases s b with hb | ⟨r2, c2, hb, _⟩
  · simp [ha, hb, gridAt_neg_row]
  · have h1 : ¬ ((-1 : Int) = (r2.val : Int)) := by omega
    have h2 : ¬ ((-1 : Int) = (c2.val : Int)) := by omega
    simp [ha, hb, gridAt_neg_row, h1, h2]
  · have h1 : ¬ ((r1.val : Int) = -1) := by omega
    have h2 : ¬ ((c1.val : Int) = -1) := by omega
    simp [ha, hb, gridAt_neg_row, gridAt_none_of_neg_col, h1, h2]
  · rcases h with h | h
    · rw [ha] at h
      have : (r1.val : Int) = -1 := congrArg Prod.fst h
      omega
    · rw [hb] at h
      have : (r2.val : Int) = -1 := congrArg Prod.fst h
      omega

theorem decryptPair_mergeJ (s : DualCipher) (a b : Nat) :
    decryptPair s (mergeJ a) (mergeJ b) = decryptPair s a b := by
  unfold decryptPair
  rw [findPosInGrid_mergeJ, findPosInGrid_mergeJ]

/-- The decrypting transform reads `J` as `I`. -/
theorem playfairDecryptCipher_map_mergeJ (s : DualCipher) :
    ∀ C : List Nat, playfairDecryptCipher s (C.map mergeJ) = playfairDecryptCipher s C
  | [] => rfl
  | [a] => by
    have h0 : mergeJ 0 = 0 := rfl
    have := decryptPair_mergeJ s a 0
    rw [h0] at this
    simp only [List.map_cons, List.map_nil, playfairDecryptCipher, this]
  | a :: b :: rest => by
    simp only [List.map_cons, playfairDecryptCipher, decryptPair_mergeJ,
      playfairDecryptCipher_map_mergeJ s rest]

/-! ## Further facts on the substitution stage and the preparation -/

/-- On a text of uppercase letters `keywordDecrypt` keeps the length and
returns uppercase letters. -/
theorem keywordDecrypt_of_isUpper (s : DualCipher) (L : List Nat) (h : ∀ c ∈ L, IsUpper c) :
    (keywordDecrypt s L).length = L.length ∧ ∀ c ∈ keywordDecrypt s L, IsUpper c := by
  unfold keywordDecrypt
  simp only
  rw [normalizeLetters_of_isUpper _ h,
    foldl_push_ite (fun c => (buildKeywordAlphabet s.keyword).indexOf c
      < (buildKeywordAlphabet s.keyword).length), List.nil_append]
  refine ⟨List.length_map _ _, ?_⟩
  intro c hc
  obtain ⟨a, ha, rfl⟩ := List.mem_map.1 hc
  have hmem : a ∈ buildKeywordAlphabet s.keyword := (mem_buildKeywordAlphabet _ a).2 (h a ha)
  have hlt := List.indexOf_lt_length.2 hmem
  rw [if_pos hlt]
  rw [length_buildKeywordAlphabet] at hlt
  rw [alpha_getD _ hlt]
  unfold IsUpper
  omega

theorem keywordEncrypt_entry_injective (s : DualCipher) (a b : Nat) (ha : IsUpper a)
    (hb : IsUpper b)
    (h : (buildKeywordAlphabet s.keyword).getD (a - 65) 0
      = (buildKeywordAlphabet s.keyword).getD (b - 65) 0) : a = b := by
  unfold IsUpper at ha hb
  have hla : a - 65 < (buildKeywordAlphabet s.keyword).length := by
    rw [length_buildKeywordAlphabet]; omega
  have hlb : b - 65 < (buildKeywordAlphabet s.keyword).length := by
    rw [length_buildKeywordAlphabet]; omega
  rw [List.getD_eq_getElem _ _ hla, List.getD_eq_getElem _ _ hlb] at h
  have := (List.Nodup.getElem_inj_iff (nodup_buildKeywordAlphabet s.keyword)).1 h
  omega

theorem chain_ne_map (f : Nat → Nat) :
    ∀ l : List Nat, (∀ a ∈ l, ∀ b ∈ l, f a = f b → a = b) →
      List.Chain' (fun a b => a ≠ b) l → List.Chain' (fun a b => a ≠ b) (l.map f)
  | [], _, _ => List.chain'_nil
  | [a], _, _ => List.chain'_singleton _
  | a :: b :: rest, hinj, h => by
    rw [List.chain'_cons] at h
    simp only [List.map_cons]
    rw [List.chain'_cons]
    refine ⟨fun hab => h.1 (hinj a (by simp) b (by simp) hab), ?_⟩
    have := chain_ne_map f (b :: rest)
      (fun x hx y hy => hinj x (List.mem_cons_of_mem _ hx) y (List.mem_cons_of_mem _ hy)) h.2
    simpa using this

/-- A text of even length without two equal neighbours is its own greedy
pairing: no filler is inserted. -/
theorem prep_eq_self :
    ∀ l : List Nat, l.length % 2 = 0 → List.Chain' (fun a b => a ≠ b) l → prep l = l
  | [], _, _ => rfl
  | [_], h, _ => by simp at h
  | a :: b :: rest, hlen, h => by
    rw [List.chain'_cons] at h
    rw [prep, if_neg h.1, prep_eq_self rest (by simp only [List.length_cons] at hlen; omega)
      h.2.tail]

theorem cleanForPlayfair_eq_self (l : List Nat) (h : ∀ c ∈ l, IsUpper c) (hJ : 74 ∉ l) :
    cleanForPlayfair l = l := by
  rw [cleanForPlayfair_eq, List.filter_eq_self.2 (fun c hc => isalpha_of_isUpper (h c hc))]
  conv_rhs => rw [← List.map_id l]
  apply List.map_congr_left
  intro c hc
  have h74 : c ≠ 74 := fun e => hJ (e ▸ hc)
  rw [toupper_of_isUpper (h c hc)]
  unfold mergeJ
  rw [if_neg h74]
  rfl

/-- Without a `J` in the substituted text, with an even number of letters and
no two equal neighbours, preparation changes nothing. -/
theorem prepareForPlayfair_keywordEncrypt_eq_self (s : DualCipher) (x : List Nat)
    (heven : (normalizeLetters x).length % 2 = 0)
    (hadj : List.Chain' (fun a b => a ≠ b) (normalizeLetters x))
    (hJ : 74 ∉ keywordEncrypt s x) :
    prepareForPlayfair (keywordEncrypt s x) = keywordEncrypt s x := by
  rw [prepareForPlayfair_eq, cleanForPlayfair_eq_self _ (keywordEncrypt_isUpper s x) hJ]
  apply prep_eq_self
  · rw [keywordEncrypt_length]; exact heven
  · rw [keywordEncrypt_eq]
    exact chain_ne_map _ _ (fun a ha b hb hab =>
      keywordEncrypt_entry_injective s a b (normalizeLetters_isUpper x a ha)
        (normalizeLetters_isUpper x b hb) hab) hadj

theorem normalizeLetters_idem (s : List Nat) :
    normalizeLetters (normalizeLetters s) = normalizeLetters s :=
  normalizeLetters_of_isUpper _ (normalizeLetters_isUpper s)

theorem isGridLetter_mergeJ_of_isUpper {ch : Nat} (h : IsUpper ch) : IsGridLetter (mergeJ ch) := by
  unfold IsUpper at h
  unfold IsGridLetter IsUpper mergeJ
  by_cases h74 : ch = 74
  · rw [if_pos h74]; omega
  · rw [if_neg h74]; omega

/-- In a grid that satisfies the invariant every uppercase letter is found,
`J` at the cell of `I`. -/
theorem findPosInGrid_of_isUpper (s : DualCipher) (hs : GridOK s) (ch : Nat) (h : IsUpper ch) :
    ∃ r c : Fin 5, findPosInGrid s ch = ((r.val : Int), (c.val : Int))
      ∧ s.playfairGrid r c = mergeJ ch := by
  obtain ⟨r, c, hcell⟩ := hs.cover _ (isGridLetter_mergeJ_of_isUpper h)
  refine ⟨r, c, ?_, hcell⟩
  rw [← findPosInGrid_mergeJ, ← hcell, findPosInGrid_cell s hs]

/-- Decryption of an even-length ciphertext of uppercase letters succeeds and
gives uppercase letters, as many as the ciphertext has. -/
theorem decrypt_of_isUpper (s : DualCipher) (hs : GridOK s) (C : List Nat)
    (heven : C.length % 2 = 0) (hup : ∀ ch ∈ C, IsUpper ch) :
    ∃ P, decrypt s C = some P ∧ P.length = C.length ∧ ∀ ch ∈ P, IsUpper ch := by
  obtain ⟨P, hP, hlen, hin, _⟩ := playfair_decrypt_then_encrypt s hs (C.map mergeJ)
    (by rw [List.length_map]; exact heven)
    (fun ch hch => by
      obtain ⟨a, ha, rfl⟩ := List.mem_map.1 hch
      exact (inGrid_iff s hs _).2 (isGridLetter_mergeJ_of_isUpper (hup a ha)))
  rw [playfairDecryptCipher_map_mergeJ] at hP
  rw [List.length_map] at hlen
  have hPup : ∀ ch ∈ P, IsUpper ch := fun ch hch => ((inGrid_iff s hs ch).1 (hin ch hch)).1
  obtain ⟨h1, h2⟩ := keywordDecrypt_of_isUpper s P hPup
  refine ⟨keywordDecrypt s P, ?_, by rw [h1, hlen], h2⟩
  unfold decrypt
  rw [hP]
  rfl

set_option maxRecDepth 100000 in
/-- C11: for every two prior states (a configured and used engine, a fresh
engine whatever its cells hold) and every keyword `K`, `setKeyword K` leaves
the same stored keyword and the same 25 grid cells, so `encrypt` and `decrypt`
depend only on `K` and the input; after re-keying from `KEY` to `MONARCHY` the
ciphertext of `HELLO` is the one of `MONARCHY`, not the one of `KEY`. -/
theorem setKeyword_replaces_state (s0 s1 : DualCipher) (K : List Nat) :
    (setKeyword s0 K).keyword = (setKeyword s1 K).keyword
      ∧ (∀ r c, (setKeyword s0 K).playfairGrid r c = (setKeyword s1 K).playfairGrid r c)
      ∧ (∀ x, encrypt (setKeyword s0 K) x = encrypt (setKeyword s1 K) x)
      ∧ (∀ x, decrypt (setKeyword s0 K) x = decrypt (setKeyword s1 K) x)
      ∧ encrypt (setKeyword (setKeyword s0 (str "KEY")) (str "MONARCHY")) (str "HELLO")
          = encrypt (setKeyword fresh (str "MONARCHY")) (str "HELLO")
      ∧ encrypt (setKeyword (setKeyword s0 (str "KEY")) (str "MONARCHY")) (str "HELLO")
          ≠ encrypt (setKeyword s0 (str "KEY")) (str "HELLO") := by
  have h : setKeyword s0 K = setKeyword s1 K := by
    rw [setKeyword_eq_fresh s0, setKeyword_eq_fresh s1]
  refine ⟨by rw [h], fun r c => by rw [h], fun x => by rw [h], fun x => by rw [h], ?_, ?_⟩
  · rw [setKeyword_eq_fresh]
  · rw [setKeyword_eq_fresh (setKeyword s0 (str "KEY")), setKeyword_eq_fresh s0]
    decide

/-- C12: for every keyword `K` and every even-length ciphertext of uppercase
letters (`J` allowed), every lookup of `decrypt` finds a cell of the grid (the
one of `I` for `J`), and `decrypt` returns uppercase letters, as many as the
ciphertext has. -/
theorem decrypt_uppercase_same_length (s0 : DualCipher) (K C : List Nat)
    (heven : C.length % 2 = 0) (hup : ∀ ch ∈ C, IsUpper ch) :
    (∀ ch ∈ C, ∃ r c : Fin 5,
        findPosInGrid (setKeyword s0 K) ch = ((r.val : Int), (c.val : Int))
          ∧ (setKeyword s0 K).playfairGrid r c = mergeJ ch)
      ∧ ∃ P, decrypt (setKeyword s0 K) C = some P ∧ P.length = C.length
          ∧ ∀ ch ∈ P, IsUpper ch :=
  ⟨fun ch hch => findPosInGrid_of_isUpper _ (gridOK_setKeyword s0 K) ch (hup ch hch),
    decrypt_of_isUpper _ (gridOK_setKeyword s0 K) C heven hup⟩

set_option maxRecDepth 100000 in
/-- Witness for C12: keyword `KEY` and the ciphertext `JAZZ`. -/
theorem decrypt_uppercase_same_length_witness :
    (str "JAZZ").length % 2 = 0 ∧ (∀ ch ∈ str "JAZZ", IsUpper ch)
      ∧ ∃ P, decrypt (setKeyword fresh (str "KEY")) (str "JAZZ") = some P
          ∧ P.length = (str "JAZZ").length ∧ ∀ ch ∈ P, IsUpper ch :=
  ⟨by decide, by decide,
    (decrypt_uppercase_same_length fresh (str "KEY") (str "JAZZ") (by decide) (by decide)).2⟩

set_option maxRecDepth 100000 in
/-- C13, as stated, fails: `decrypt` hands the odd-length string `A` to
`playfairDecryptCipher` as it is.  The transform then reads the terminator
as the second letter of the pair and indexes outside the grid, whereas the
prepared string `AX` would have been transformed. -/
theorem decrypt_odd_length_unprepared :
    (str "A").length % 2 = 1
      ∧ decrypt (setKeyword fresh (str "KEY")) (str "A")
          = (playfairDecryptCipher (setKeyword fresh (str "KEY")) (str "A")).bind
              (fun p => some (keywordDecrypt (setKeyword fresh (str "KEY")) p))
      ∧ playfairDecryptCipher (setKeyword fresh (str "KEY")) (str "A") = none
      ∧ prepareForPlayfair (str "A") = str "AX"
      ∧ (playfairDecryptCipher (setKeyword fresh (str "KEY")) (str "AX")).isSome = true := by
  decide

/-- C13, amended: for every keyword and input, `encrypt` routes its input
through `prepareForPlayfair`, so `playfairEncryptPrepared` is applied to an
even-length string; `decrypt` applies `playfairDecryptCipher` to the ciphertext
as given, without preparation. -/
theorem encrypt_routes_through_preparation (s0 : DualCipher) (K x c : List Nat) :
    encrypt (setKeyword s0 K) x
        = playfairEncryptPrepared (setKeyword s0 K)
            (prepareForPlayfair (keywordEncrypt (setKeyword s0 K) x))
      ∧ (prepareForPlayfair (keywordEncrypt (setKeyword s0 K) x)).length % 2 = 0
      ∧ decrypt (setKeyword s0 K) c
          = (playfairDecryptCipher (setKeyword s0 K) c).bind
              (fun p => some (keywordDecrypt (setKeyword s0 K) p)) := by
  refine ⟨rfl, ?_, rfl⟩
  rw [prepareForPlayfair_eq]
  exact prep_length_even _

set_option maxRecDepth 100000 in
/-- C14, evaluated at the failing input: with keyword `KEY`, `decrypt "a1"`
looks up `a` and `1`, both absent from the grid; `findPosInGrid` answers the
sentinel `(-1, -1)`, the transform takes the same-row branch and reads
`playfairGrid[-1][(-1 + 4) % 5]`, outside the grid; no error is raised. -/
theorem decrypt_lookup_miss_reads_outside_grid :
    findPosInGrid (setKeyword fresh (str "KEY")) 97 = (-1, -1)
      ∧ findPosInGrid (setKeyword fresh (str "KEY")) 49 = (-1, -1)
      ∧ gridAt (setKeyword fresh (str "KEY")) (-1) (Int.tmod (-1 + 4) 5) = none
      ∧ decryptPair (setKeyword fresh (str "KEY")) 97 49 = none
      ∧ encryptPair (setKeyword fresh (str "KEY")) 97 49 = none
      ∧ decrypt (setKeyword fresh (str "KEY")) (str "a1") = none := by
  decide

/-- C15: for every input text, `prepareForPlayfair text` is the greedy
pairing `prep` of the cleaned text (letters only, uppercased, `J` replaced by
`I`), where `prep [] = []`, `prep [a] = [a, X]`, `prep (a :: a :: rest)
= a :: X :: prep (a :: rest)` and `prep (a :: b :: rest) = a :: b :: prep rest`
for `a ≠ b`; `BALLOON` gives `BALXLOON` and `XXX` gives `XXXXXX`. -/
theorem prepareForPlayfair_eq_greedy (raw : List Nat) :
    prepareForPlayfair raw
        = prep ((raw.filter isalpha).map (fun ch => mergeJ (toupper ch)))
      ∧ prep [] = []
      ∧ (∀ a, prep [a] = [a, 88])
      ∧ (∀ a b rest, prep (a :: b :: rest)
          = if a = b then a :: 88 :: prep (b :: rest) else a :: b :: prep rest)
      ∧ prepareForPlayfair (str "BALLOON") = str "BALXLOON"
      ∧ prepareForPlayfair (str "XXX") = str "XXXXXX" := by
  refine ⟨?_, rfl, fun a => rfl, fun a b rest => rfl, by decide, by decide⟩
  rw [prepareForPlayfair_eq, cleanForPlayfair_eq]

/-- C16: in the grid built from any keyword, `findPosInGrid ch` for an
uppercase letter `ch` returns coordinates within `0..4` of the cell holding
`ch` (`I` when `ch` is `J`); when `ch`, with `J` read as `I`, does not occur
in the grid, it returns the sentinel `(-1, -1)`. -/
theorem findPosInGrid_spec (s0 : DualCipher) (K : List Nat) (ch : Nat) :
    (IsUpper ch →
        0 ≤ (findPosInGrid (setKeyword s0 K) ch).1 ∧ (findPosInGrid (setKeyword s0 K) ch).1 < 5
          ∧ 0 ≤ (findPosInGrid (setKeyword s0 K) ch).2
          ∧ (findPosInGrid (setKeyword s0 K) ch).2 < 5
          ∧ gridAt (setKeyword s0 K) (findPosInGrid (setKeyword s0 K) ch).1
              (findPosInGrid (setKeyword s0 K) ch).2 = some (if ch = 74 then 73 else ch))
      ∧ (¬ InGrid (setKeyword s0 K) (if ch = 74 then 73 else ch) →
          findPosInGrid (setKeyword s0 K) ch = (-1, -1)) := by
  constructor
  · intro h
    obtain ⟨r, c, hpos, hcell⟩ :=
      findPosInGrid_of_isUpper _ (gridOK_setKeyword s0 K) ch h
    rw [hpos]
    simp only
    rw [gridAt_coe, hcell]
    refine ⟨by omega, by omega, by omega, by omega, rfl⟩
  · intro h
    exact findPosInGrid_of_not_inGrid _ ch h

set_option maxRecDepth 100000 in
/-- Witness for C16: with keyword `KEY` the letter `J` is found at row 2,
column 0, the cell of `I`; the lowercase `a` is answered by the sentinel. -/
theorem findPosInGrid_spec_witness :
    IsUpper 74
      ∧ findPosInGrid (setKeyword fresh (str "KEY")) 74 = (2, 0)
      ∧ gridAt (setKeyword fresh (str "KEY")) (findPosInGrid (setKeyword fresh (str "KEY")) 74).1
          (findPosInGrid (setKeyword fresh (str "KEY")) 74).2 = some 73
      ∧ ¬ InGrid (setKeyword fresh (str "KEY")) (if 97 = 74 then 73 else 97)
      ∧ findPosInGrid (setKeyword fresh (str "KEY")) 97 = (-1, -1) :=
  ⟨by decide, by decide,
    ((findPosInGrid_spec fresh (str "KEY") 74).1 (by decide)).2.2.2.2,
    by decide, (findPosInGrid_spec fresh (str "KEY") 97).2 (by decide)⟩

/-- C17: for every string `s`, `normalizeLetters s` is the alphabetic
characters of `s` in their order, each uppercased; it contains only `A..Z`;
normalizing twice is normalizing once. -/
theorem normalizeLetters_spec (s : List Nat) :
    normalizeLetters s = (s.filter isalpha).map toupper
      ∧ (∀ c ∈ normalizeLetters s, IsUpper c)
      ∧ normalizeLetters (normalizeLetters s) = normalizeLetters s :=
  ⟨normalizeLetters_eq s, normalizeLetters_isUpper s, normalizeLetters_idem s⟩

/-- Witness for C17: `Hi, Bob!` normalizes to `HIBOB`, which holds the
uppercase letter `B`. -/
theorem normalizeLetters_spec_witness :
    normalizeLetters (str "Hi, Bob!") = str "HIBOB" ∧ IsUpper 66 :=
  ⟨by decide, (normalizeLetters_spec (str "Hi, Bob!")).2.1 66 (by decide)⟩

/-- C18: for every keyword `K` and plaintext `x` whose normalized form has an
even number of letters, no two equal neighbours, and no letter that the
keyword alphabet maps to `J`, `decrypt (encrypt x)` is `normalizeLetters x`. -/
theorem decrypt_encrypt_exact (s0 : DualCipher) (K x : List Nat)
    (heven : (normalizeLetters x).length % 2 = 0)
    (hadj : List.Chain' (fun a b => a ≠ b) (normalizeLetters x))
    (hJ : 74 ∉ keywordEncrypt (setKeyword s0 K) x) :
    (encrypt (setKeyword s0 K) x).bind (decrypt (setKeyword s0 K))
      = some (normalizeLetters x) := by
  obtain ⟨c, hc, _, _, hdec⟩ := encrypt_spec s0 K x
  rw [hc, Option.some_bind]
  unfold decrypt
  rw [hdec, prepareForPlayfair_keywordEncrypt_eq_self _ x heven hadj hJ]
  simp only [Option.bind_eq_bind, Option.some_bind]
  rw [keywordDecrypt_keywordEncrypt]

set_option maxRecDepth 100000 in
/-- Witness for C18: keyword `KEY`, plaintext `Hi mama`. -/
theorem decrypt_encrypt_exact_witness :
    (normalizeLetters (str "Hi mama")).length % 2 = 0
      ∧ List.Chain' (fun a b => a ≠ b) (normalizeLetters (str "Hi mama"))
      ∧ 74 ∉ keywordEncrypt (setKeyword fresh (str "KEY")) (str "Hi mama")
      ∧ (encrypt (setKeyword fresh (str "KEY")) (str "Hi mama")).bind
          (decrypt (setKeyword fresh (str "KEY"))) = some (str "HIMAMA") := by
  have hn : normalizeLetters (str "Hi mama") = [72, 73, 77, 65, 77, 65] := by decide
  have hadj : List.Chain' (fun a b => a ≠ b) (normalizeLetters (str "Hi mama")) := by
    rw [hn]; simp
  exact ⟨by decide, hadj, by decide,
    decrypt_encrypt_exact fresh (str "KEY") (str "Hi mama") (by decide) hadj (by decide)⟩

set_option maxRecDepth 100000 in
/-- C19: with keyword `KEY` the plaintext `LA` (uppercase, even length, no
equal neighbours) is not recovered: the alphabet maps `L` to `J` and `K` to
`I`, preparation merges `J` into `I`, and `decrypt (encrypt "LA")` is `KA`. -/
theorem decrypt_encrypt_merges_J (s0 : DualCipher) :
    (∀ c ∈ str "LA", IsUpper c) ∧ (str "LA").length % 2 = 0
      ∧ List.Chain' (fun a b => a ≠ b) (str "LA")
      ∧ keywordEncrypt (setKeyword s0 (str "KEY")) (str "L") = str "J"
      ∧ keywordEncrypt (setKeyword s0 (str "KEY")) (str "K") = str "I"
      ∧ prepareForPlayfair (keywordEncrypt (setKeyword s0 (str "KEY")) (str "LA"))
          = keywordEncrypt (setKeyword s0 (str "KEY")) (str "KA")
      ∧ (encrypt (setKeyword s0 (str "KEY")) (str "LA")).bind
          (decrypt (setKeyword s0 (str "KEY"))) = some (str "KA")
      ∧ str "KA" ≠ str "LA" := by
  rw [setKeyword_eq_fresh]
  have hadj : List.Chain' (fun a b => a ≠ b) (str "LA") := by
    show List.Chain' (fun a b => a ≠ b) [76, 65]
    simp
  exact ⟨by decide, by decide, hadj, by decide, by decide, by decide, by decide, by decide⟩

/-- C20: for every keyword `K` and every even-length string `S` of letters
of the grid built from `K`, `playfairDecryptCipher` succeeds on `S` with a
grid-valid string of the same length that `playfairEncryptPrepared` maps back
to `S`, and the same holds with the two transforms exchanged. -/
theorem playfairEncryptPrepared_playfairDecryptCipher (s0 : DualCipher) (K S : List Nat)
    (heven : S.length % 2 = 0) (hgrid : ∀ ch ∈ S, InGrid (setKeyword s0 K) ch) :
    (∃ P, playfairDecryptCipher (setKeyword s0 K) S = some P ∧ P.length = S.length
        ∧ (∀ ch ∈ P, InGrid (setKeyword s0 K) ch)
        ∧ playfairEncryptPrepared (setKeyword s0 K) P = some S)
      ∧ ∃ C, playfairEncryptPrepared (setKeyword s0 K) S = some C ∧ C.length = S.length
          ∧ (∀ ch ∈ C, InGrid (setKeyword s0 K) ch)
          ∧ playfairDecryptCipher (setKeyword s0 K) C = some S :=
  ⟨playfair_decrypt_then_encrypt _ (gridOK_setKeyword s0 K) S heven hgrid,
    playfair_encrypt_then_decrypt _ (gridOK_setKeyword s0 K) S heven hgrid⟩

set_option maxRecDepth 100000 in
/-- Witness for C20: keyword `MONARCHY` and the pairs `MO` (same row), `MC`
(same column), `MH` (rectangle) and `ZZ` (one letter twice). -/
theorem playfairEncryptPrepared_playfairDecryptCipher_witness :
    (str "MOMCMHZZ").length % 2 = 0
      ∧ (∀ ch ∈ str "MOMCMHZZ", InGrid (setKeyword fresh (str "MONARCHY")) ch)
      ∧ ∃ P, playfairDecryptCipher (setKeyword fresh (str "MONARCHY")) (str "MOMCMHZZ") = some P
          ∧ playfairEncryptPrepared (setKeyword fresh (str "MONARCHY")) P
              = some (str "MOMCMHZZ") := by
  refine ⟨by decide, by decide, ?_⟩
  obtain ⟨P, hP, _, _, hback⟩ :=
    (playfairEncryptPrepared_playfairDecryptCipher fresh (str "MONARCHY") (str "MOMCMHZZ")
      (by decide) (by decide)).1
  exact ⟨P, hP, hback⟩

end DualCipher
